import Mathlib

/-!
Shallow embedding of the Order-Transaction matching and update engine of
src/tagger.py (mint-amazon-tagger).

Conventions of the embedding:
* amounts are integer micro-USD (`Money := Int`), as in the currency module;
* dates are integer day numbers, so the Python `(t.odate - date).days`
  becomes plain integer subtraction;
* Python object identity of Order/Refund records is represented by a `uid`
  field; the mutable `matched` flag on records becomes a set (list) of
  matched uids threaded through the matching functions;
* the Python `next(...)` expression that can raise StopIteration, the
  `assert` statements and `exit(1)` become an `Except Abort` result;
* strings are `List Char` with explicit lower-casing.

The companion modules (amazon.py, mint.py, currency.py, category.py) are not
under src/: every definition below that depends on them carries a doc
comment starting with `Modelled from the spec:` and follows the wording of
the specification for the missing code.
-/

namespace Tagger

abbrev Money := Int

/-- Modelled from the spec: the currency module is not under src/.  Money is
an integer count of micro-USD and two amounts are "nearly equal" under a
small fixed epsilon. -/
def MICRO_USD_EPS : Money := 100

/-- Modelled from the spec: near-equality of two micro-USD amounts under the
fixed epsilon (currency.micro_usd_nearly_equal). -/
def micro_usd_nearly_equal (a b : Money) : Bool :=
  decide (|a - b| < MICRO_USD_EPS)

/-- An Order or Refund record as seen by the matching engine: `uid` stands
for Python object identity, `oid` is the merchant order identifier,
`amount` is `transact_amount()` (total charged for orders, negated refund
total for refunds) and `tdate` is `transact_date()` (ship/refund date,
absent when never shipped). -/
structure AOrder where
  uid : Nat
  oid : Nat
  amount : Money
  tdate : Option Int
deriving DecidableEq

/-- A Mint transaction as seen by the matching engine: posted date `odate`,
signed `amount`, and the `orders` field that `Transaction.match` populates
with the matched group of Order/Refund records. -/
structure MTrans where
  odate : Int
  amount : Money
  orders : Option (List AOrder) := none
deriving DecidableEq

/-- Python `next(o for o in orders if o.transact_date())`: the first member
of the candidate group that has a transact date (the group representative). -/
def transactDateRep (g : List AOrder) : Option AOrder :=
  g.find? fun o => o.tdate.isSome

/-- Summed `transact_amount()` of a candidate group
(`sum([o.transact_amount() for o in c])`). -/
def sumAmounts (g : List AOrder) : Money :=
  (g.map AOrder.amount).sum

/-- Python `any([o.matched for o in orders])` with the matched flag
represented by membership of the record uid in the matched set. -/
def anyMatched (m : List Nat) (g : List AOrder) : Bool :=
  g.any fun o => decide (o.uid ∈ m)

/-- The candidate scan loop of `mark_best_as_matched` (tagger.py lines
421-433).  The accumulator holds the current closest match and its day
distance (`closest_match_num_days`, initially 365).  A candidate group all
of whose members lack a transact date makes the Python generator raise
StopIteration, embedded as `.error ()`. -/
def findClosest (m : List Nat) (t : MTrans) :
    List (List AOrder) → Option (List AOrder) → Int →
    Except Unit (Option (List AOrder))
  | [], best, _ => .ok best
  | g :: rest, best, bestDays =>
    match transactDateRep g with
    | none => .error ()
    | some o =>
      let numDays : Int := t.odate - o.tdate.getD 0
      if |numDays| < 4 ∧ |numDays| < bestDays ∧ anyMatched m g = false then
        findClosest m t rest (some g) |numDays|
      else
        findClosest m t rest best bestDays

/-- tagger.py `mark_best_as_matched`: pick the closest eligible candidate
group and mark both sides matched (`o.match(t)` adds the member uids to the
matched set, `t.match(closest)` sets `t.orders`). -/
def mark_best_as_matched (m : List Nat) (t : MTrans)
    (groups : List (List AOrder)) : Except Unit (List Nat × MTrans) :=
  if groups.isEmpty then .ok (m, t)
  else
    match findClosest m t groups none 365 with
    | .error e => .error e
    | .ok none => .ok (m, t)
    | .ok (some g) => .ok (m ++ g.map AOrder.uid, { t with orders := some g })

/-- The per-transaction loop of a matching pass
(`for t in unmatched_trans: mark_best_as_matched(t, amount_to_orders[t.amount])`).
`bucket` is the amount-indexed defaultdict of candidate groups. -/
def matchPass (bucket : Money → List (List AOrder)) :
    List Nat → List MTrans → Except Unit (List Nat × List MTrans)
  | m, [] => .ok (m, [])
  | m, t :: rest =>
    match mark_best_as_matched m t (bucket t.amount) with
    | .error e => .error e
    | .ok (m1, t1) =>
      match matchPass bucket m1 rest with
      | .error e => .error e
      | .ok (m2, rest2) => .ok (m2, t1 :: rest2)

/-- The second-pass per-transaction loop: the source first filters
`unmatched_trans = [t for t in unmatched_trans if not t.orders]` and then
loops over that filtered list, which is the same as skipping every already
matched transaction in place. -/
def matchPassB (bucket : Money → List (List AOrder)) :
    List Nat → List MTrans → Except Unit (List Nat × List MTrans)
  | m, [] => .ok (m, [])
  | m, t :: rest =>
    if t.orders.isSome then
      match matchPassB bucket m rest with
      | .error e => .error e
      | .ok (m2, rest2) => .ok (m2, t :: rest2)
    else
      match mark_best_as_matched m t (bucket t.amount) with
      | .error e => .error e
      | .ok (m1, t1) =>
        match matchPassB bucket m1 rest with
        | .error e => .error e
        | .ok (m2, rest2) => .ok (m2, t1 :: rest2)

/-- Pass A buckets: `amount_to_orders[o.transact_amount()].append([o])`.
A defaultdict of appended singleton groups, read back at one key, is the
filter of the singleton groups (in input order) whose sum is that key. -/
def passABuckets (os : List AOrder) (a : Money) : List (List AOrder) :=
  (os.map fun o => [o]).filter fun g => decide (sumAmounts g = a)

/-- Keys of `oid_to_orders` in first-seen order (Python dicts preserve
insertion order). -/
def firstSeenOids (os : List AOrder) : List Nat :=
  (os.map AOrder.oid).foldl (fun acc k => if k ∈ acc then acc else acc ++ [k]) []

/-- Pass B combination enumeration (tagger.py lines 460-470): group the
still-unmatched orders by order id, and for each group enumerate every
combination of size 2 up to the group size.  `itertools.combinations`
yields the length-`r` subsequences of the group; the enumeration order
inside one size differs here from itertools' lexicographic order, which no
bucket consumer depends on (buckets are only filtered by sum). -/
def passBCombos (os : List AOrder) : List (List AOrder) :=
  (firstSeenOids os).flatMap fun k =>
    let grp := os.filter fun o => decide (o.oid = k)
    (List.range' 2 (grp.length - 1)).flatMap fun r => List.sublistsLen r grp

/-- Pass B buckets: combinations indexed by their summed transact amount. -/
def passBBuckets (os : List AOrder) (a : Money) : List (List AOrder) :=
  (passBCombos os).filter fun g => decide (sumAmounts g = a)

/-- The orders of `os` that are still unmatched under matched set `m`
(`unmatched_orders = [o for o in unmatched_orders if not o.matched]`). -/
def unmatchedAfter (os : List AOrder) (m : List Nat) : List AOrder :=
  os.filter fun o => decide (o.uid ∉ m)

/-- tagger.py `match_transactions`: pass A (direct, singleton groups keyed
by exact amount) followed by pass B (combinations of still-unmatched orders
sharing an order id, keyed by summed amount), both passes run over the
transactions in input order. -/
def match_transactions (m : List Nat) (os : List AOrder) (ts : List MTrans) :
    Except Unit (List Nat × List MTrans) :=
  match matchPass (passABuckets os) m ts with
  | .error e => .error e
  | .ok (m1, ts1) =>
    matchPassB (passBBuckets (unmatchedAfter os m1)) m1 ts1

/-- Lower-casing of a string (`.lower()`), character by character. -/
def lowerStr (s : List Char) : List Char := s.map Char.toLower

/-- Python `a.startswith(b)` on character lists: `isPre b a` holds when `b`
is a leading segment of `a`. -/
def isPre : List Char → List Char → Bool
  | [], _ => true
  | _ :: _, [] => false
  | a :: as, b :: bs => a == b && isPre as bs

/-- Python `needle in hay` substring containment on character lists. -/
def subStr (needle : List Char) : List Char → Bool
  | [] => needle.isEmpty
  | c :: rest => isPre needle (c :: rest) || subStr needle rest

/-- A line item of a (merged) order: title, item subtotal, item tax and the
predicted category. -/
structure MItem where
  title : List Char
  subtotal : Money
  tax : Money
  category : List Char
deriving DecidableEq

/-- Modelled from the spec: the merged Order record of amazon.py (not under
src/) with the fields the reconciler reads — subtotal, tax, shipping,
promotion, total charged, the owned items and the source website. -/
structure MOrder where
  website : List Char
  subtotal : Money
  tax : Money
  shipping : Money
  promotion : Money
  total_charged : Money
  items : List MItem
deriving DecidableEq

/-- Total of one item: item subtotal plus item tax. -/
def itemTotal (i : MItem) : Money := i.subtotal + i.tax

/-- Modelled from the spec: the declared subtotal-based total of an order,
"sum of subtotal + tax + shipping − promotion". -/
def total_by_subtotals (o : MOrder) : Money :=
  o.subtotal + o.tax + o.shipping - o.promotion

/-- Modelled from the spec: the item-based total of an order, "sum of item
totals + non-item charges" (shipping net of promotion). -/
def total_by_items (o : MOrder) : Money :=
  (o.items.map itemTotal).sum + o.shipping - o.promotion

/-- Title given to the synthesized miscellaneous-charge item. -/
def miscChargeTitle : List Char := "Misc Charge (Gift wrap, etc)".toList

/-- Modelled from the spec: Order.attribute_subtotal_diff_to_misc_charge of
amazon.py (not under src/).  When the charged total and the subtotal-based
total differ, the gap is recorded as a miscellaneous charge: an extra item
carrying the gap is appended and the order subtotal absorbs it, so the
subtotal-based total reproduces the charged total exactly.  Returns whether
a fix-up was applied, for the `misc_charge` counter. -/
def attribute_subtotal_diff_to_misc_charge (o : MOrder) : Bool × MOrder :=
  let diff := o.total_charged - total_by_subtotals o
  if diff = 0 then (false, o)
  else
    (true, { o with
      subtotal := o.subtotal + diff,
      items := o.items ++ [⟨miscChargeTitle, diff, 0, []⟩] })

/-- Spread the residual `diff` across the tax fields of the items
`i :: rest`: an equal integer share per item with the remainder on the
first item, so the adjusted item totals gain exactly `diff`. -/
def spreadTax (diff : Money) (i : MItem) (rest : List MItem) : List MItem :=
  let n : Money := (rest.length : Int) + 1
  let q := diff / n
  { i with tax := i.tax + q + (diff - q * n) } ::
    rest.map fun j => { j with tax := j.tax + q }

/-- Modelled from the spec: Order.attribute_itemized_diff_to_per_item_tax of
amazon.py (not under src/).  When the item-based total does not match the
charged total exactly, the residual is spread across the items' tax fields
so that the adjusted item totals sum to the charged total exactly.  Returns
whether an adjustment was applied, for the `adjust_itemized_tax` counter. -/
def attribute_itemized_diff_to_per_item_tax (o : MOrder) : Bool × MOrder :=
  let diff := o.total_charged - total_by_items o
  if diff = 0 then (false, o)
  else
    match o.items with
    | [] => (false, o)
    | i :: rest => (true, { o with items := spreadTax diff i rest })

/-- The two order fix-ups of tagger.py lines 320-328 applied in source
order, returning the fixed order and the two "was applied" flags. -/
def fixedOrder (o : MOrder) : MOrder × Bool × Bool :=
  let p1 := attribute_subtotal_diff_to_misc_charge o
  let p2 := attribute_itemized_diff_to_per_item_tax p1.2
  (p2.2, p1.1, p2.1)

/-- A synthesized replacement ledger entry (a new Mint transaction):
description, signed amount and category. -/
structure NewTrans where
  merchant : List Char
  amount : Money
  category : List Char
deriving DecidableEq

/-- mint.Transaction.sum_amounts: summed amount of a list of entries. -/
def sum_amounts (l : List NewTrans) : Money :=
  (l.map NewTrans.amount).sum

/-- Modelled from the spec: Order.to_mint_transactions of amazon.py (not
under src/).  One candidate entry per item (description = item title,
amount = item total, category = item's predicted category), with the
non-item charges (shipping net of promotion) folded into the first item
entry, so the candidate amounts sum to the item-based order total. -/
def to_mint_transactions (o : MOrder) : List NewTrans :=
  match o.items with
  | [] => []
  | i :: rest =>
    { merchant := i.title,
      amount := itemTotal i + o.shipping - o.promotion,
      category := i.category }
      :: rest.map fun j =>
        { merchant := j.title, amount := itemTotal j, category := j.category }

/-- Modelled from the spec: one Refund record of amazon.py (not under
src/): title, signed transact amount (negative of the refund total),
category and source website. -/
structure MRefund where
  title : List Char
  amount : Money
  category : List Char
  website : List Char
deriving DecidableEq

/-- Modelled from the spec: Refund.to_mint_transaction — one replacement
entry per Refund record, carrying the refund's signed amount. -/
def refund_to_mint_transaction (r : MRefund) : NewTrans :=
  { merchant := r.title, amount := r.amount, category := r.category }

/-- A Mint transaction as seen by the update loop: current description,
original description (as first observed), signed amount, category,
debit/credit flag, pending flag and previously synthesized children. -/
structure PTrans where
  merchant : List Char
  omerchant : List Char
  amount : Money
  category : List Char
  isDebit : Bool
  isPending : Bool
  children : List NewTrans
deriving DecidableEq

/-- Equality of one current entry against one proposed entry, on
description and amount and (unless categories are ignored) category. -/
def ntEqual (ignoreCat : Bool) (a b : NewTrans) : Bool :=
  a.merchant == b.merchant && a.amount == b.amount &&
    (ignoreCat || a.category == b.category)

/-- Modelled from the spec: mint.Transaction.old_and_new_are_identical (not
under src/) — compare the current state (the children if the transaction
was previously split, else the transaction itself) against the proposed
replacement set, by exact equality on description and amount and (unless
categories are ignored) category. -/
def old_and_new_are_identical (t : PTrans) (news : List NewTrans)
    (ignoreCat : Bool) : Bool :=
  let current : List NewTrans :=
    if t.children.isEmpty then [⟨t.merchant, t.amount, t.category⟩]
    else t.children
  current.length == news.length &&
    (current.zip news).all fun p => ntEqual ignoreCat p.1 p.2

/-- Modelled from the spec: amazon.rm_leading_qty (not under src/) — strip
a leading quantity marker such as "3x " from an item name. -/
def rm_leading_qty (s : List Char) : List Char :=
  let ds := s.takeWhile Char.isDigit
  if ds.isEmpty then s
  else
    match s.drop ds.length with
    | 'x' :: ' ' :: tail => tail
    | _ => s

/-- Lookup in the item-name → historical-category mapping, represented as
an association list in first-seen order. -/
def lookupRename (renames : List (List Char × List Char)) (k : List Char) :
    Option (List Char) :=
  (renames.find? fun p => p.1 == k).map Prod.snd

/-- The personalized-category pass of tagger.py lines 354-362: for each
candidate entry, look the item name up in the historical mapping and, when
a different category is recorded there, rewrite the entry's category.  The
second component counts the rewrites (the `personal_cat` counter). -/
def applyRenames (renames : List (List Char × List Char)) :
    List NewTrans → List NewTrans × Nat
  | [] => ([], 0)
  | n :: rest =>
    let pr := applyRenames renames rest
    match lookupRename renames (rm_leading_qty (lowerStr n.merchant)) with
    | some c =>
      if c == n.category then (n :: pr.1, pr.2)
      else ({ n with category := c } :: pr.1, pr.2 + 1)
    | none => (n :: pr.1, pr.2)

/-- The configuration flags of tagger.py that the update loop reads (the
update cap `--num_updates` is passed separately to the loop). -/
structure Args where
  verbose_itemize : Bool
  no_itemize : Bool
  prompt_retag : Bool
  retag_changed : Bool
  no_tag_categories : Bool
  amazon_domains : List (List Char)
  description_prefix_override : Option (List Char)
  description_return_prefix_override : Option (List Char)
deriving DecidableEq

/-- The outcome counters of the update loop. -/
structure Stats where
  misc_charge : Nat := 0
  adjust_itemized_tax : Nat := 0
  already_up_to_date : Nat := 0
  user_skipped_retag : Nat := 0
  no_retag : Nat := 0
  retag : Nat := 0
  new_tag : Nat := 0
  personal_cat : Nat := 0
deriving DecidableEq

/-- The merged match of one transaction: the merged Order for a debit, the
merged list of Refund records otherwise. -/
inductive Payload
  | debit (o : MOrder)
  | refund (rs : List MRefund)
deriving DecidableEq

/-- The description marker for a matched debit:
`'{}: '.format(order.website)` unless overridden. -/
def debitPre (args : Args) (o : MOrder) : List Char :=
  match args.description_prefix_override with
  | some p => p
  | none => o.website ++ ": ".toList

/-- The description marker for a matched refund:
`'{} refund: '.format(refunds[0].website)` unless overridden. -/
def refundPre (args : Args) (rs : List MRefund) : List Char :=
  match args.description_return_prefix_override with
  | some p => p
  | none => (rs.headD ⟨[], 0, [], []⟩).website ++ " refund: ".toList

/-- The description marker chosen for the transaction's payload. -/
def payloadPre (args : Args) (p : Payload) : List Char :=
  match p with
  | .debit o => debitPre args o
  | .refund rs => refundPre args rs

/-- The candidate entries synthesized for the payload, before the
personalized-category pass: per-item entries of the fixed-up merged order
for a debit, one entry per refund record otherwise. -/
def rawNewTrans (p : Payload) : List NewTrans :=
  match p with
  | .debit o => to_mint_transactions (fixedOrder o).1
  | .refund rs => rs.map refund_to_mint_transaction

/-- Modelled from the spec: mint.summarize_new_trans (not under src/) —
collapse the candidate entries into a single replacement entry whose
description concatenates the item titles behind the marker and whose
amount equals the full transaction amount. -/
def summarize_new_trans (t : PTrans) (news : List NewTrans)
    (preS : List Char) : List NewTrans :=
  [{ merchant := preS ++ (news.map NewTrans.merchant).flatten,
     amount := t.amount,
     category := (news.headD ⟨[], 0, []⟩).category }]

/-- Modelled from the spec: mint.itemize_new_trans (not under src/) — keep
every candidate entry, prepending the marker to each description. -/
def itemize_new_trans (news : List NewTrans) (preS : List Char) :
    List NewTrans :=
  news.map fun n => { n with merchant := preS ++ n.merchant }

/-- tagger.py line 366:
`summarize_single_item_order = t.is_debit and len(order.items) == 1 and not args.verbose_itemize`,
where `order` is the fixed-up merged order. -/
def summarizeSingle (args : Args) (t : PTrans) (p : Payload) : Bool :=
  t.isDebit &&
    (match p with
     | .debit o => (fixedOrder o).1.items.length == 1
     | .refund _ => false) &&
    !args.verbose_itemize

/-- The proposed replacement set for one matched transaction: candidate
entries, personalized categories applied, then summarized or itemized
(tagger.py lines 354-372).  The second component is the number of
personalized-category rewrites. -/
def proposedNewTrans (args : Args) (renames : List (List Char × List Char))
    (t : PTrans) (p : Payload) : List NewTrans × Nat :=
  let pr := applyRenames renames (rawNewTrans p)
  let preS := payloadPre args p
  if args.no_itemize || summarizeSingle args t p then
    (summarize_new_trans t pr.1 preS, pr.2)
  else
    (itemize_new_trans pr.1 preS, pr.2)

/-- The three reconciliation assertions of tagger.py lines 330-332. -/
def reconCheck (t : PTrans) (o : MOrder) : Bool :=
  micro_usd_nearly_equal t.amount o.total_charged &&
    micro_usd_nearly_equal t.amount (total_by_subtotals o) &&
    micro_usd_nearly_equal t.amount (total_by_items o)

/-- The ways the update loop can abort the whole run: a failed `assert`
(data-integrity fault) or `exit(1)` at the interactive prompt. -/
inductive Abort
  | assertFail
  | userExit
deriving DecidableEq

abbrev Updates := List (PTrans × List NewTrans)

/-- Result of one iteration of the update loop: continue with the new
state, or leave the loop (the `break` under the update cap). -/
inductive StepOut
  | cont (st : Stats) (ups : Updates) (input : List (Option Char))
  | brk (st : Stats) (ups : Updates) (input : List (Option Char))
deriving DecidableEq

/-- The retag / idempotency policy part of one loop iteration (tagger.py
lines 374-404): the up-to-date check, the recognized-marker check and the
retag branches.  The interactive prompt reads the head of `input`; `none`
stands for the empty read (abort signal) on which the program exits, and an
exhausted stream is treated the same way. -/
def policyTail (num_updates : Int) (args : Args)
    (renames : List (List Char × List Char)) (t : PTrans) (p : Payload)
    (st : Stats) (ups : Updates) (input : List (Option Char)) :
    Except Abort StepOut :=
  let pr := proposedNewTrans args renames t p
  let newsF := pr.1
  let st1 := { st with personal_cat := st.personal_cat + pr.2 }
  if old_and_new_are_identical t newsF args.no_tag_categories then
    .ok (.cont
      { st1 with already_up_to_date := st1.already_up_to_date + 1 } ups input)
  else
    let valid := args.amazon_domains.map lowerStr ++ [lowerStr (payloadPre args p)]
    if valid.any fun q => isPre q (lowerStr t.merchant) then
      if args.prompt_retag then
        if 0 < num_updates ∧ num_updates ≤ (ups.length : Int) then
          .ok (.brk st1 ups input)
        else
          match input with
          | [] => .error .userExit
          | none :: _ => .error .userExit
          | some c :: rest =>
            if c = 'Y' ∨ c = 'y' ∨ c = '\r' ∨ c = '\n' then
              .ok (.cont { st1 with retag := st1.retag + 1 }
                (ups ++ [(t, newsF)]) rest)
            else
              .ok (.cont
                { st1 with user_skipped_retag := st1.user_skipped_retag + 1 }
                ups rest)
      else if args.retag_changed then
        .ok (.cont { st1 with retag := st1.retag + 1 } (ups ++ [(t, newsF)]) input)
      else
        .ok (.cont { st1 with no_retag := st1.no_retag + 1 } ups input)
    else
      .ok (.cont { st1 with new_tag := st1.new_tag + 1 } (ups ++ [(t, newsF)]) input)

/-- One iteration of the update loop of get_mint_updates (tagger.py lines
311-404) for a matched transaction with its merged payload: order fix-ups
and the reconciliation and conservation assertions for a debit, the
conservation assertion alone for a refund, then the retag policy. -/
def processOne (num_updates : Int) (args : Args)
    (renames : List (List Char × List Char)) (t : PTrans) (p : Payload)
    (st : Stats) (ups : Updates) (input : List (Option Char)) :
    Except Abort StepOut :=
  match p with
  | .debit o =>
    let f := fixedOrder o
    let st1 := { st with
      misc_charge := st.misc_charge + (if f.2.1 then 1 else 0),
      adjust_itemized_tax := st.adjust_itemized_tax + (if f.2.2 then 1 else 0) }
    if reconCheck t f.1 then
      if micro_usd_nearly_equal t.amount (sum_amounts (to_mint_transactions f.1)) then
        policyTail num_updates args renames t p st1 ups input
      else .error .assertFail
    else .error .assertFail
  | .refund rs =>
    if micro_usd_nearly_equal t.amount
        (sum_amounts (rs.map refund_to_mint_transaction)) then
      policyTail num_updates args renames t p st ups input
    else .error .assertFail

/-- The update loop over the matched transactions in encounter order. -/
def processLoop (num_updates : Int) (args : Args)
    (renames : List (List Char × List Char)) :
    List (PTrans × Payload) → Stats → Updates → List (Option Char) →
    Except Abort (Stats × Updates × List (Option Char))
  | [], st, ups, input => .ok (st, ups, input)
  | q :: rest, st, ups, input =>
    match processOne num_updates args renames q.1 q.2 st ups input with
    | .error e => .error e
    | .ok (.brk st1 ups1 in1) => .ok (st1, ups1, in1)
    | .ok (.cont st1 ups1 in1) => processLoop num_updates args renames rest st1 ups1 in1

/-- The update-list slice of get_mint_updates: run the loop, then apply the
final cap truncation `updates = updates[:args.num_updates]` (tagger.py
lines 406-407). -/
def get_mint_updates (num_updates : Int) (args : Args)
    (renames : List (List Char × List Char)) (ps : List (PTrans × Payload))
    (st0 : Stats) (input : List (Option Char)) :
    Except Abort (Updates × Stats) :=
  match processLoop num_updates args renames ps st0 [] input with
  | .error e => .error e
  | .ok (st, ups, _) =>
    .ok ((if 0 < num_updates then ups.take num_updates.toNat else ups), st)

/-- The merchant-substring input filter of tagger.py lines 256-258: keep a
transaction when one of the whitelist strings occurs in its original
description, lower-cased. -/
def merchantFilterKeep (wl : List (List Char)) (t : PTrans) : Bool :=
  wl.any fun w => subStr w (lowerStr t.omerchant)

/-- `trans = [t for t in trans if any(merch_str in t.omerchant.lower() ...)]`. -/
def filterByMerchant (wl : List (List Char)) (ts : List PTrans) : List PTrans :=
  ts.filter (merchantFilterKeep wl)

/-- The child amounts sent in a Mint "split" request (tagger.py lines
731-737): each entry's amount, sign-flipped when the original transaction
is a credit. -/
def split_amounts (orig : PTrans) (news : List NewTrans) : List Money :=
  news.map fun n => if orig.isDebit then n.amount else -n.amount

/-- Every member of the group is marked matched in `m`. -/
def AllIn (m : List Nat) (g : List AOrder) : Prop := ∀ o ∈ g, o.uid ∈ m

/-- No member of the group is marked matched in `m`. -/
def FreshFor (m : List Nat) (g : List AOrder) : Prop := ∀ o ∈ g, o.uid ∉ m

/-- The group has a representative (first dated member) whose transact date
is strictly within 4 days of the transaction's posted date. -/
def DateOK (t : MTrans) (g : List AOrder) : Prop :=
  ∃ o, transactDateRep g = some o ∧ ∃ d, o.tdate = some d ∧ |t.odate - d| < 4

/-- Eligibility of a candidate group for transaction `t` under matched set
`m`: within the date window and no member already matched. -/
def Elig (m : List Nat) (t : MTrans) (g : List AOrder) : Prop :=
  DateOK t g ∧ anyMatched m g = false

/-- Absolute day gap between the transaction's posted date and the group
representative's transact date. -/
def gapDays (t : MTrans) (g : List AOrder) : Int :=
  |t.odate - (((transactDateRep g).bind AOrder.tdate).getD 0)|

/-- Soundness of one (possibly matched) transaction: its matched group, if
any, sums to the transaction amount, lies in the date window and is fully
marked in `m`. -/
def TransSound (m : List Nat) (t : MTrans) : Prop :=
  ∀ g, t.orders = some g → sumAmounts g = t.amount ∧ DateOK t g ∧ AllIn m g

/-- The matched groups of two transactions share no record. -/
def GroupsDisjoint (t1 t2 : MTrans) : Prop :=
  ∀ g1 g2, t1.orders = some g1 → t2.orders = some g2 →
    ∀ o1 ∈ g1, ∀ o2 ∈ g2, o1.uid ≠ o2.uid

/-- How one transaction can change across a matching-pass loop whose
buckets are `G` and whose entry matched set is `m`: untouched, or newly
assigned an eligible fresh group from its bucket. -/
def StepRel (G : Money → List (List AOrder)) (m : List Nat)
    (t t' : MTrans) : Prop :=
  t' = t ∨
    ∃ g, t'.orders = some g ∧ t.orders = none ∧ g ∈ G t.amount ∧
      DateOK t g ∧ FreshFor m g ∧ t'.odate = t.odate ∧ t'.amount = t.amount

/-- Consistency of a matched transaction with its merged payload, as
established by the matching engine: a debit transaction's amount equals the
merged order's charged total (and the merged order owns at least one item,
since orders without items are filtered out before matching); a credit
transaction's amount equals the summed amounts of its refund records. -/
def PayloadOK (t : PTrans) (p : Payload) : Prop :=
  match p with
  | .debit o => t.isDebit = true ∧ t.amount = o.total_charged ∧ o.items ≠ []
  | .refund rs => t.isDebit = false ∧ t.amount = (rs.map MRefund.amount).sum

/-- Concrete inputs used to exercise the theorems below on closed runs. -/
def wOrder1 : AOrder := ⟨0, 7, 42, some 2⟩

def wOs1 : List AOrder := [wOrder1]

def wTs1 : List MTrans := [⟨4, 42, none⟩]

def wTs1' : List MTrans := [⟨4, 42, some [wOrder1]⟩]

def wT5 : MTrans := ⟨5, 10, none⟩

def wG5a : List AOrder := [⟨1, 1, 10, some 3⟩]

def wG5b : List AOrder := [⟨2, 1, 10, some 7⟩]

def wOs6 : List AOrder := [⟨1, 5, 10, some 0⟩, ⟨2, 5, 20, some 0⟩]

def wItem : MItem :=
  { title := "i".toList, subtotal := 10, tax := 0, category := "c".toList }

def wOrder : MOrder :=
  { website := "a".toList, subtotal := 10, tax := 0, shipping := 0,
    promotion := 0, total_charged := 10, items := [wItem] }

def wArgs : Args :=
  { verbose_itemize := false, no_itemize := true, prompt_retag := false,
    retag_changed := false, no_tag_categories := false, amazon_domains := [],
    description_prefix_override := none,
    description_return_prefix_override := none }

def wTrans : PTrans :=
  { merchant := "z".toList, omerchant := "amazon z".toList, amount := 10,
    category := "c".toList, isDebit := true, isPending := false,
    children := [] }

def wEntry : NewTrans :=
  { merchant := "a: i".toList, amount := 10, category := "c".toList }

def wTrans4 : PTrans := { wTrans with merchant := "a: i".toList }

def cArgsX : Args :=
  { verbose_itemize := false, no_itemize := true, prompt_retag := true,
    retag_changed := false, no_tag_categories := false,
    amazon_domains := ["amazon.com".toList],
    description_prefix_override := none,
    description_return_prefix_override := none }

def cRefundX : MRefund :=
  { title := "w".toList, amount := -5, category := "c".toList,
    website := "amazon.com".toList }

def cTransX : PTrans :=
  { merchant := "amazon.com: w".toList, omerchant := "amazon w".toList,
    amount := -5, category := "c".toList, isDebit := false,
    isPending := false, children := [] }

def wWl : List (List Char) := ["amzn".toList]

def wT10 : PTrans :=
  { merchant := "foo".toList, omerchant := "xAmznq".toList, amount := 1,
    category := [], isDebit := true, isPending := false, children := [] }

theorem anyMatched_eq_false_iff (m : List Nat) (g : List AOrder) :
    anyMatched m g = false ↔ FreshFor m g := by
  simp [anyMatched, FreshFor, List.any_eq_false]

theorem findClosest_ok_iff (m : List Nat) (t : MTrans) :
    ∀ (gs : List (List AOrder)) (best : Option (List AOrder)) (bd : Int),
    (∃ r, findClosest m t gs best bd = .ok r) ↔
      ∀ g ∈ gs, (transactDateRep g).isSome = true := by
  intro gs
  induction gs with
  | nil => intro best bd; simp [findClosest]
  | cons g rest ih =>
    intro best bd
    cases h : transactDateRep g with
    | none => simp [findClosest, h]
    | some o =>
      simp only [findClosest, h]
      split
      · rw [ih]
        simp [List.forall_mem_cons, h]
      · rw [ih]
        simp [List.forall_mem_cons, h]

/-- Claim C9: `mark_best_as_matched` returns normally exactly when every
candidate group it examines has at least one member with a transact date;
a group whose members all lack a date makes the Python selection expression
raise StopIteration (embedded as the error result), so such a group is
never silently skipped — in particular the `if not an_order: continue`
guard after the selection is unreachable. -/
theorem mark_best_total_iff (m : List Nat) (t : MTrans)
    (gs : List (List AOrder)) :
    (∃ r, mark_best_as_matched m t gs = .ok r) ↔
      ∀ g ∈ gs, ∃ o ∈ g, o.tdate.isSome = true := by
  cases gs with
  | nil => simp [mark_best_as_matched]
  | cons g rest =>
    have hne : (g :: rest).isEmpty = false := rfl
    rw [show mark_best_as_matched m t (g :: rest)
        = (match findClosest m t (g :: rest) none 365 with
          | .error e => .error e
          | .ok none => .ok (m, t)
          | .ok (some g') =>
            .ok (m ++ g'.map AOrder.uid, { t with orders := some g' }))
      from by simp [mark_best_as_matched, hne]]
    constructor
    · intro hr
      have : ∃ r, findClosest m t (g :: rest) none 365 = .ok r := by
        rcases hr with ⟨r, hr⟩
        cases hf : findClosest m t (g :: rest) none 365 with
        | error e => rw [hf] at hr; exact absurd hr (by simp)
        | ok v => exact ⟨v, rfl⟩
      rw [findClosest_ok_iff] at this
      intro g' hg'
      have := this g' hg'
      simpa [transactDateRep, List.find?_isSome] using this
    · intro hall
      have : ∃ r, findClosest m t (g :: rest) none 365 = .ok r := by
        rw [findClosest_ok_iff]
        intro g' hg'
        simpa [transactDateRep, List.find?_isSome] using hall g' hg'
      rcases this with ⟨r, hr⟩
      rw [hr]
      cases r <;> exact ⟨_, rfl⟩

theorem findClosest_sel (m : List Nat) (t : MTrans) :
    ∀ (gs : List (List AOrder)) (best : Option (List AOrder)) (bd : Int)
      (g : List AOrder),
    findClosest m t gs best bd = .ok (some g) →
    (∀ b, best = some b → Elig m t b ∧ gapDays t b = bd) →
    (best = some g ∧ ∀ g' ∈ gs, Elig m t g' → bd ≤ gapDays t g') ∨
    (∃ pre post, gs = pre ++ g :: post ∧ Elig m t g ∧ gapDays t g < bd ∧
      (∀ g' ∈ pre, Elig m t g' → gapDays t g < gapDays t g') ∧
      (∀ g' ∈ gs, Elig m t g' → gapDays t g ≤ gapDays t g')) := by
  intro gs
  induction gs with
  | nil =>
    intro best bd g hfc hinv
    left
    refine ⟨by simpa [findClosest] using hfc, by simp⟩
  | cons g1 rest ih =>
    intro best bd g hfc hinv
    cases h : transactDateRep g1 with
    | none => rw [findClosest, h] at hfc; exact absurd hfc (by simp)
    | some o =>
      have hfind : g1.find? (fun x => x.tdate.isSome) = some o := h
      have hoS0 := List.find?_some hfind
      have hoS : o.tdate.isSome = true := hoS0
      obtain ⟨d, hd⟩ := Option.isSome_iff_exists.mp hoS
      have hgap : gapDays t g1 = |t.odate - d| := by
        simp [gapDays, h, hd]
      have hnum : o.tdate.getD 0 = d := by rw [hd]; rfl
      have hcond : (|t.odate - o.tdate.getD 0| < 4 ∧
            |t.odate - o.tdate.getD 0| < bd ∧ anyMatched m g1 = false) ↔
          (Elig m t g1 ∧ gapDays t g1 < bd) := by
        rw [hnum, hgap]
        constructor
        · rintro ⟨h4, hbd, hm⟩
          exact ⟨⟨⟨o, h, d, hd, h4⟩, hm⟩, hbd⟩
        · rintro ⟨⟨⟨o', ho', d', hd', h4'⟩, hm⟩, hlt⟩
          have hoo : o' = o := by rw [h] at ho'; exact (Option.some.inj ho').symm
          subst hoo
          have hdd : d' = d := by rw [hd] at hd'; exact (Option.some.inj hd').symm
          subst hdd
          exact ⟨h4', hlt, hm⟩
      have hfc2 : (if |t.odate - o.tdate.getD 0| < 4 ∧
            |t.odate - o.tdate.getD 0| < bd ∧ anyMatched m g1 = false then
            findClosest m t rest (some g1) |t.odate - o.tdate.getD 0|
          else findClosest m t rest best bd) = .ok (some g) := by
        rw [findClosest, h] at hfc
        exact hfc
      clear hfc
      by_cases hc : (|t.odate - o.tdate.getD 0| < 4 ∧
          |t.odate - o.tdate.getD 0| < bd ∧ anyMatched m g1 = false)
      · rw [if_pos hc] at hfc2
        obtain ⟨hElig1, hlt1⟩ := hcond.mp hc
        have hgap1 : |(t.odate - o.tdate.getD 0 : Int)| = gapDays t g1 := by
          rw [hnum, hgap]
        rw [hgap1] at hfc2
        rcases ih (some g1) (gapDays t g1) g hfc2
            (by rintro b hb; exact ⟨by injection hb with hb; rwa [← hb],
              by injection hb with hb; rw [← hb]⟩) with
          ⟨hbg, hmin⟩ | ⟨pre, post, heq, hEl, hlt, hpre, hglob⟩
        · have hgg : g1 = g := Option.some.inj hbg
          subst hgg
          right
          refine ⟨[], rest, by simp, hElig1, hlt1, by simp, ?_⟩
          intro g' hg' hE
          rcases List.mem_cons.mp hg' with hrf | hmem
          · subst hrf; exact le_refl _
          · exact hmin g' hmem hE
        · right
          refine ⟨g1 :: pre, post, by rw [heq]; simp, hEl, lt_trans hlt hlt1, ?_, ?_⟩
          · intro g' hg' hE
            rcases List.mem_cons.mp hg' with hrf | hmem
            · subst hrf; exact hlt
            · exact hpre g' hmem hE
          · intro g' hg' hE
            rcases List.mem_cons.mp hg' with hrf | hmem
            · subst hrf; exact le_of_lt hlt
            · exact hglob g' hmem hE
      · rw [if_neg hc] at hfc2
        have hnot : Elig m t g1 → bd ≤ gapDays t g1 := by
          intro hE
          by_contra hlt
          exact hc (hcond.mpr ⟨hE, lt_of_not_le hlt⟩)
        rcases ih best bd g hfc2 hinv with
          ⟨hbg, hmin⟩ | ⟨pre, post, heq, hEl, hlt, hpre, hglob⟩
        · left
          refine ⟨hbg, ?_⟩
          intro g' hg' hE
          rcases List.mem_cons.mp hg' with hrf | hmem
          · subst hrf; exact hnot hE
          · exact hmin g' hmem hE
        · right
          refine ⟨g1 :: pre, post, by rw [heq]; simp, hEl, hlt, ?_, ?_⟩
          · intro g' hg' hE
            rcases List.mem_cons.mp hg' with hrf | hmem
            · subst hrf; exact lt_of_lt_of_le hlt (hnot hE)
            · exact hpre g' hmem hE
          · intro g' hg' hE
            rcases List.mem_cons.mp hg' with hrf | hmem
            · subst hrf; exact le_trans (le_of_lt hlt) (hnot hE)
            · exact hglob g' hmem hE

theorem mark_best_spec (m : List Nat) (t : MTrans) (gs : List (List AOrder))
    (m' : List Nat) (t' : MTrans)
    (h : mark_best_as_matched m t gs = .ok (m', t')) :
    (m' = m ∧ t' = t) ∨
    ∃ g, findClosest m t gs none 365 = .ok (some g) ∧ g ∈ gs ∧ Elig m t g ∧
      m' = m ++ g.map AOrder.uid ∧ t' = { t with orders := some g } := by
  by_cases hgs : gs.isEmpty
  · left
    unfold mark_best_as_matched at h
    rw [if_pos hgs] at h
    have hp := Except.ok.inj h
    exact ⟨(congrArg Prod.fst hp).symm, (congrArg Prod.snd hp).symm⟩
  · unfold mark_best_as_matched at h
    rw [if_neg hgs] at h
    cases hf : findClosest m t gs none 365 with
    | error e => rw [hf] at h; exact absurd h (by simp)
    | ok v =>
      rw [hf] at h
      cases v with
      | none =>
        left
        have hp := Except.ok.inj h
        exact ⟨(congrArg Prod.fst hp).symm, (congrArg Prod.snd hp).symm⟩
      | some g =>
        right
        have hsel := findClosest_sel m t gs none 365 g hf (by intro b hb; cases hb)
        rcases hsel with ⟨hbg, _⟩ | ⟨pre, post, heq, hEl, _, _, _⟩
        · cases hbg
        · have hmem : g ∈ gs := by rw [heq]; simp
          have hp := Except.ok.inj h
          exact ⟨g, rfl, hmem, hEl,
            (congrArg Prod.fst hp).symm, (congrArg Prod.snd hp).symm⟩

/-- Claim C5: when `mark_best_as_matched` links a transaction to a group,
that group is eligible (no already-matched member, representative date
strictly within 4 days of the posted date), its day gap is minimal among
the eligible candidate groups of the bucket, and on equal gaps the group
appearing first in bucket order is the one chosen. -/
theorem nearest_date_selection (m : List Nat) (t : MTrans)
    (gs : List (List AOrder)) (m' : List Nat) (t' : MTrans) (g : List AOrder)
    (ht : t.orders = none)
    (h : mark_best_as_matched m t gs = .ok (m', t'))
    (hg : t'.orders = some g) :
    Elig m t g ∧
    (∀ g' ∈ gs, Elig m t g' → gapDays t g ≤ gapDays t g') ∧
    ∃ pre post, gs = pre ++ g :: post ∧
      ∀ g' ∈ pre, Elig m t g' → gapDays t g < gapDays t g' := by
  rcases mark_best_spec m t gs m' t' h with ⟨_, hteq⟩ | ⟨g0, hfc, _, hEl, _, ht'⟩
  · rw [hteq, ht] at hg; cases hg
  · have hg0 : g0 = g := by
      rw [ht'] at hg
      exact Option.some.inj hg
    subst hg0
    rcases findClosest_sel m t gs none 365 g0 hfc (by intro b hb; cases hb) with
      ⟨hbg, _⟩ | ⟨pre, post, heq, hEl2, _, hpre, hglob⟩
    · cases hbg
    · exact ⟨hEl2, hglob, pre, post, heq, hpre⟩

theorem transSound_mono {m m' : List Nat} {t : MTrans}
    (h : ∀ x ∈ m, x ∈ m') (ht : TransSound m t) : TransSound m' t := by
  intro g hg
  obtain ⟨h1, h2, h3⟩ := ht g hg
  exact ⟨h1, h2, fun o ho => h o.uid (h3 o ho)⟩

theorem stepRel_mono {G : Money → List (List AOrder)} {m m1 : List Nat}
    {t t' : MTrans} (h : ∀ x ∈ m, x ∈ m1) (hs : StepRel G m1 t t') :
    StepRel G m t t' := by
  rcases hs with rfl | ⟨g, h1, h2, h3, h4, h5, h6, h7⟩
  · exact Or.inl rfl
  · exact Or.inr ⟨g, h1, h2, h3, h4,
      fun o ho hmem => h5 o ho (h o.uid hmem), h6, h7⟩

theorem forall₂_mem_right {α β : Type} {R : α → β → Prop} :
    ∀ {l : List α} {l' : List β}, List.Forall₂ R l l' →
    ∀ b ∈ l', ∃ a ∈ l, R a b := by
  intro l l' h
  induction h with
  | nil => intro b hb; cases hb
  | @cons a b la lb hr _ ih =>
    intro b' hb'
    rcases List.mem_cons.mp hb' with hrf | hmem
    · exact ⟨a, List.mem_cons_self _ _, hrf ▸ hr⟩
    · obtain ⟨a', ha', hR⟩ := ih b' hmem
      exact ⟨a', List.mem_cons_of_mem _ ha', hR⟩

theorem pairwise_disjoint_of_none {ts : List MTrans}
    (h : ∀ t ∈ ts, t.orders = none) : List.Pairwise GroupsDisjoint ts := by
  induction ts with
  | nil => exact .nil
  | cons t rest ih =>
    refine .cons ?_ (ih fun r hr => h r (List.mem_cons_of_mem _ hr))
    intro r _ g1 _ hg1 _
    rw [h t (List.mem_cons_self _ _)] at hg1
    cases hg1

theorem matchPassB_sound (G : Money → List (List AOrder))
    (HG : ∀ a g, g ∈ G a → sumAmounts g = a) :
    ∀ (ts : List MTrans) (m m' : List Nat) (ts' : List MTrans),
    matchPassB G m ts = .ok (m', ts') →
    (∀ t ∈ ts, TransSound m t) →
    List.Pairwise GroupsDisjoint ts →
    (∀ x ∈ m, x ∈ m') ∧
    (∀ t' ∈ ts', TransSound m' t') ∧
    List.Pairwise GroupsDisjoint ts' ∧
    List.Forall₂ (StepRel G m) ts ts' := by
  intro ts
  induction ts with
  | nil =>
    intro m m' ts' h _ _
    have hp : (m, ([] : List MTrans)) = (m', ts') := Except.ok.inj h
    have hm : m' = m := (congrArg Prod.fst hp).symm
    have hts : ts' = ([] : List MTrans) := (congrArg Prod.snd hp).symm
    subst hm; subst hts
    exact ⟨fun x hx => hx, by simp, .nil, .nil⟩
  | cons t rest ih =>
    intro m m' ts' h hts hpw
    have hpwc := List.pairwise_cons.mp hpw
    by_cases hg : t.orders = none
    · -- transaction still unmatched: mark_best_as_matched runs
      rw [show matchPassB G m (t :: rest)
          = (match mark_best_as_matched m t (G t.amount) with
            | .error e => .error e
            | .ok (m1, t1) =>
              match matchPassB G m1 rest with
              | .error e => .error e
              | .ok (m2, rest2) => .ok (m2, t1 :: rest2))
        from by rw [matchPassB, if_neg (by simp [hg])]] at h
      cases hmb : mark_best_as_matched m t (G t.amount) with
      | error e => rw [hmb] at h; exact absurd h (by simp)
      | ok p =>
        obtain ⟨m1, t1⟩ := p
        rw [hmb] at h
        have h2 : (match matchPassB G m1 rest with
            | .error e => (.error e : Except Unit (List Nat × List MTrans))
            | .ok (m2, rest2) => .ok (m2, t1 :: rest2)) = .ok (m', ts') := h
        clear h
        cases hrec : matchPassB G m1 rest with
        | error e => rw [hrec] at h2; exact absurd h2 (by simp)
        | ok p2 =>
          obtain ⟨m2, rest2⟩ := p2
          rw [hrec] at h2
          have hp := Except.ok.inj h2
          have hm' : m2 = m' := congrArg Prod.fst hp
          have hts' : t1 :: rest2 = ts' := congrArg Prod.snd hp
          subst hm'; subst hts'
          rcases mark_best_spec m t (G t.amount) m1 t1 hmb with
            ⟨hm1, ht1⟩ | ⟨g, _, hgmem, hElg, hm1, ht1⟩
          · -- no candidate selected: state unchanged
            have hm1' := hm1.symm
            have ht1' := ht1.symm
            subst hm1'; subst ht1'
            obtain ⟨hsub, hsound, hpw2, hf2⟩ :=
              ih m m2 rest2 hrec
                (fun r hr => hts r (List.mem_cons_of_mem _ hr)) hpwc.2
            refine ⟨hsub, ?_, ?_, .cons (Or.inl rfl) hf2⟩
            · intro t' ht'
              rcases List.mem_cons.mp ht' with hrf | hmem
              · subst hrf
                intro g1 hg1
                rw [hg] at hg1; cases hg1
              · exact hsound t' hmem
            · refine List.Pairwise.cons ?_ hpw2
              intro r' _ g1 _ hg1 _
              rw [hg] at hg1; cases hg1
          · -- a fresh eligible group was selected and marked
            subst hm1; subst ht1
            obtain ⟨hDateOK, hAnyF⟩ := hElg
            have hFresh : FreshFor m g := (anyMatched_eq_false_iff m g).mp hAnyF
            have hmsub : ∀ x ∈ m, x ∈ m ++ g.map AOrder.uid :=
              fun x hx => List.mem_append_left _ hx
            have hrest_sound : ∀ r ∈ rest, TransSound (m ++ g.map AOrder.uid) r :=
              fun r hr =>
                transSound_mono hmsub (hts r (List.mem_cons_of_mem _ hr))
            obtain ⟨hsub2, hsound2, hpw2, hf2⟩ :=
              ih (m ++ g.map AOrder.uid) m2 rest2 hrec hrest_sound hpwc.2
            have hsub : ∀ x ∈ m, x ∈ m2 := fun x hx => hsub2 x (hmsub x hx)
            have huidm2 : ∀ o ∈ g, o.uid ∈ m2 := by
              intro o ho
              exact hsub2 o.uid
                (List.mem_append_right _ (List.mem_map.mpr ⟨o, ho, rfl⟩))
            refine ⟨hsub, ?_, ?_, ?_⟩
            · intro t' ht'
              rcases List.mem_cons.mp ht' with hrf | hmem
              · subst hrf
                intro g1 hg1
                have hgg : g = g1 := Option.some.inj hg1
                subst hgg
                exact ⟨HG t.amount g hgmem, hDateOK, huidm2⟩
              · exact hsound2 t' hmem
            · refine List.Pairwise.cons ?_ hpw2
              intro r' hr' g1 g2 hg1 hg2 o1 ho1 o2 ho2 heq
              have hg1g : g = g1 := Option.some.inj hg1
              subst hg1g
              obtain ⟨r, hrmem, hstep⟩ := forall₂_mem_right hf2 r' hr'
              rcases hstep with hrf | ⟨g', hgo', _, _, _, hfresh', _, _⟩
              · -- r' is an untouched transaction of rest: its group is AllIn m
                rw [hrf] at hg2
                have hall : AllIn m g2 :=
                  ((hts r (List.mem_cons_of_mem _ hrmem)) g2 hg2).2.2
                exact hFresh o1 ho1 (heq ▸ hall o2 ho2)
              · -- r' got a group fresh for the extended matched set
                have hg2g : g' = g2 := by
                  rw [hgo'] at hg2; exact Option.some.inj hg2
                subst hg2g
                refine hfresh' o2 ho2 ?_
                rw [← heq]
                exact List.mem_append_right _ (List.mem_map.mpr ⟨o1, ho1, rfl⟩)
            · refine List.Forall₂.cons (Or.inr ⟨g, rfl, hg, hgmem, hDateOK, hFresh, rfl, rfl⟩) ?_
              exact hf2.imp fun a b hab => stepRel_mono hmsub hab
    · -- already matched: skipped in place
      have hgs : t.orders.isSome = true := by
        cases ho : t.orders with
        | none => exact absurd ho hg
        | some v => rfl
      rw [show matchPassB G m (t :: rest)
          = (match matchPassB G m rest with
            | .error e => .error e
            | .ok (m2, rest2) => .ok (m2, t :: rest2))
        from by rw [matchPassB, if_pos hgs]] at h
      cases hrec : matchPassB G m rest with
      | error e => rw [hrec] at h; exact absurd h (by simp)
      | ok p =>
        obtain ⟨m2, rest2⟩ := p
        rw [hrec] at h
        have hp := Except.ok.inj h
        have hm' : m2 = m' := congrArg Prod.fst hp
        have hts' : t :: rest2 = ts' := congrArg Prod.snd hp
        subst hm'; subst hts'
        obtain ⟨hsub, hsound, hpw2, hf2⟩ :=
          ih m m2 rest2 hrec
            (fun r hr => hts r (List.mem_cons_of_mem _ hr)) hpwc.2
        refine ⟨hsub, ?_, ?_, .cons (Or.inl rfl) hf2⟩
        · intro t' ht'
          rcases List.mem_cons.mp ht' with hrf | hmem
          · rw [hrf]
            exact transSound_mono hsub (hts t (List.mem_cons_self _ _))
          · exact hsound t' hmem
        · refine List.Pairwise.cons ?_ hpw2
          intro r' hr' g1 g2 hg1 hg2 o1 ho1 o2 ho2 heq
          obtain ⟨r, hrmem, hstep⟩ := forall₂_mem_right hf2 r' hr'
          have hall : AllIn m g1 :=
            ((hts t (List.mem_cons_self _ _)) g1 hg1).2.2
          rcases hstep with hrf | ⟨g', hgo', _, _, _, hfresh', _, _⟩
          · rw [hrf] at hg2
            exact hpwc.1 r hrmem g1 g2 hg1 hg2 o1 ho1 o2 ho2 heq
          · have hg2g : g' = g2 := by
              rw [hgo'] at hg2; exact Option.some.inj hg2
            subst hg2g
            exact hfresh' o2 ho2 (heq ▸ hall o1 ho1)

theorem matchPass_eq_matchPassB (G : Money → List (List AOrder)) :
    ∀ (ts : List MTrans) (m : List Nat), (∀ t ∈ ts, t.orders = none) →
    matchPass G m ts = matchPassB G m ts := by
  intro ts
  induction ts with
  | nil => intro m _; rfl
  | cons t rest ih =>
    intro m h
    have ht : t.orders = none := h t (List.mem_cons_self _ _)
    have hrest : ∀ r ∈ rest, r.orders = none :=
      fun r hr => h r (List.mem_cons_of_mem _ hr)
    rw [matchPass, matchPassB, if_neg (by simp [ht])]
    cases hmb : mark_best_as_matched m t (G t.amount) with
    | error e => rfl
    | ok p =>
      obtain ⟨m1, t1⟩ := p
      show (match matchPass G m1 rest with
          | .error e => (.error e : Except Unit (List Nat × List MTrans))
          | .ok (m2, rest2) => .ok (m2, t1 :: rest2))
        = (match matchPassB G m1 rest with
          | .error e => .error e
          | .ok (m2, rest2) => .ok (m2, t1 :: rest2))
      rw [ih m1 hrest]

/-- Claim C1: after a run of the matching engine (pass A then pass B, for
transactions initially unmatched), every matched transaction carries a
group whose summed transact amounts equal the transaction amount exactly,
whose representative transact date is at most 3 days from the posted date,
and whose members are all marked matched; and the groups of distinct
transactions never share an Order/Refund record. -/
theorem matching_soundness (m0 : List Nat) (os : List AOrder)
    (ts : List MTrans) (m' : List Nat) (ts' : List MTrans)
    (hts : ∀ t ∈ ts, t.orders = none)
    (h : match_transactions m0 os ts = .ok (m', ts')) :
    (∀ t' ∈ ts', ∀ g, t'.orders = some g →
      sumAmounts g = t'.amount ∧
      (∃ o, transactDateRep g = some o ∧ ∃ d, o.tdate = some d ∧
        |t'.odate - d| ≤ 3) ∧
      ∀ o ∈ g, o.uid ∈ m') ∧
    List.Pairwise GroupsDisjoint ts' := by
  unfold match_transactions at h
  cases h1 : matchPass (passABuckets os) m0 ts with
  | error e => rw [h1] at h; exact absurd h (by simp)
  | ok p =>
    obtain ⟨m1, ts1⟩ := p
    rw [h1] at h
    rw [matchPass_eq_matchPassB (passABuckets os) ts m0 hts] at h1
    have HA : ∀ a g, g ∈ passABuckets os a → sumAmounts g = a := by
      intro a g hg
      exact of_decide_eq_true (List.mem_filter.mp hg).2
    have HB : ∀ a g, g ∈ passBBuckets (unmatchedAfter os m1) a →
        sumAmounts g = a := by
      intro a g hg
      exact of_decide_eq_true (List.mem_filter.mp hg).2
    have hsound0 : ∀ t ∈ ts, TransSound m0 t := by
      intro t htm g hg
      rw [hts t htm] at hg; cases hg
    obtain ⟨_, hsound1, hpw1, _⟩ :=
      matchPassB_sound (passABuckets os) HA ts m0 m1 ts1 h1 hsound0
        (pairwise_disjoint_of_none hts)
    obtain ⟨_, hsound2, hpw2, _⟩ :=
      matchPassB_sound (passBBuckets (unmatchedAfter os m1)) HB ts1 m1 m' ts'
        h hsound1 hpw1
    refine ⟨?_, hpw2⟩
    intro t' ht' g hg
    obtain ⟨ha, hdok, hall⟩ := hsound2 t' ht' g hg
    obtain ⟨o, ho, d, hd, hlt⟩ := hdok
    exact ⟨ha, ⟨o, ho, d, hd, by omega⟩, hall⟩

theorem mem_firstSeen_foldl :
    ∀ (l : List Nat) (acc : List Nat) (x : Nat), x ∈ acc ∨ x ∈ l →
    x ∈ l.foldl (fun acc k => if k ∈ acc then acc else acc ++ [k]) acc := by
  intro l
  induction l with
  | nil => intro acc x h; rcases h with h | h; exact h; cases h
  | cons k rest ih =>
    intro acc x h
    rw [List.foldl_cons]
    have hk : k ∈ (if k ∈ acc then acc else acc ++ [k]) := by
      split
      · assumption
      · simp
    rcases h with h | h
    · refine ih _ x (Or.inl ?_)
      split
      · exact h
      · exact List.mem_append_left _ h
    · rcases List.mem_cons.mp h with hrf | hmem
      · exact ih _ x (Or.inl (hrf ▸ hk))
      · exact ih _ x (Or.inr hmem)

theorem mem_firstSeenOids {os : List AOrder} {o : AOrder} (h : o ∈ os) :
    o.oid ∈ firstSeenOids os :=
  mem_firstSeen_foldl _ _ _ (Or.inr (List.mem_map.mpr ⟨o, h, rfl⟩))

/-- Claim C6: the pass B combination buckets are built only from
still-unmatched orders grouped by order identifier; every combination in a
bucket has size at least 2, draws its members from the unmatched orders,
and never mixes order identifiers; conversely every combination of 2 up to
group-size unmatched orders of one identifier group is enumerated; and the
buckets index the combinations exactly by their summed charged amount. -/
theorem passB_enumeration (os : List AOrder) (m1 : List Nat) :
    (∀ c ∈ passBCombos (unmatchedAfter os m1),
      2 ≤ c.length ∧
      (∀ o ∈ c, o ∈ os ∧ o.uid ∉ m1) ∧
      ∀ o1 ∈ c, ∀ o2 ∈ c, o1.oid = o2.oid) ∧
    (∀ (k : Nat) (s : List AOrder), 2 ≤ s.length →
      s.Sublist ((unmatchedAfter os m1).filter fun o => decide (o.oid = k)) →
      s ∈ passBCombos (unmatchedAfter os m1)) ∧
    (∀ (a : Money) (c : List AOrder),
      c ∈ passBBuckets (unmatchedAfter os m1) a ↔
        (c ∈ passBCombos (unmatchedAfter os m1) ∧ sumAmounts c = a)) := by
  refine ⟨?_, ?_, ?_⟩
  · intro c hc
    obtain ⟨k, _, hc2⟩ := List.mem_flatMap.mp hc
    obtain ⟨r, hr, hc3⟩ := List.mem_flatMap.mp hc2
    obtain ⟨hsub, hlen⟩ := List.mem_sublistsLen.mp hc3
    obtain ⟨hr2, _⟩ := List.mem_range'_1.mp hr
    refine ⟨hlen ▸ hr2, ?_, ?_⟩
    · intro o ho
      have hog := hsub.subset ho
      have := List.mem_filter.mp hog
      have hU := List.mem_filter.mp this.1
      exact ⟨hU.1, of_decide_eq_true hU.2⟩
    · intro o1 ho1 o2 ho2
      have h1 := of_decide_eq_true (List.mem_filter.mp (hsub.subset ho1)).2
      have h2 := of_decide_eq_true (List.mem_filter.mp (hsub.subset ho2)).2
      rw [h1, h2]
  · intro k s hlen hsub
    have hne : s ≠ [] := by
      intro h0; rw [h0] at hlen; simp at hlen
    obtain ⟨o, ho⟩ := List.exists_mem_of_ne_nil s hne
    have hog := hsub.subset ho
    have hoU : o ∈ unmatchedAfter os m1 := (List.mem_filter.mp hog).1
    have hok : o.oid = k := of_decide_eq_true (List.mem_filter.mp hog).2
    have hkmem : k ∈ firstSeenOids (unmatchedAfter os m1) :=
      hok ▸ mem_firstSeenOids hoU
    refine List.mem_flatMap.mpr ⟨k, hkmem, ?_⟩
    have hglen : s.length ≤
        ((unmatchedAfter os m1).filter fun o => decide (o.oid = k)).length :=
      hsub.length_le
    refine List.mem_flatMap.mpr ⟨s.length, ?_, ?_⟩
    · exact List.mem_range'_1.mpr ⟨hlen, by omega⟩
    · exact List.mem_sublistsLen.mpr ⟨hsub, rfl⟩
  · intro a c
    constructor
    · intro h
      have := List.mem_filter.mp h
      exact ⟨this.1, of_decide_eq_true this.2⟩
    · intro h
      exact List.mem_filter.mpr ⟨h.1, decide_eq_true h.2⟩

theorem nearly_equal_self (a : Money) : micro_usd_nearly_equal a a = true := by
  simp [micro_usd_nearly_equal, MICRO_USD_EPS]

theorem nearly_equal_of_eq {a b : Money} (h : a = b) :
    micro_usd_nearly_equal a b = true := h ▸ nearly_equal_self a

theorem sum_map_itemTotal_tax_add (q : Money) (l : List MItem) :
    ((l.map fun j => { j with tax := j.tax + q }).map itemTotal).sum
      = (l.map itemTotal).sum + l.length * q := by
  induction l with
  | nil => simp
  | cons i rest ih =>
    simp only [List.map_cons, List.sum_cons, ih, itemTotal, List.length_cons]
    push_cast
    ring

theorem sum_spreadTax (diff : Money) (i : MItem) (rest : List MItem) :
    ((spreadTax diff i rest).map itemTotal).sum
      = itemTotal i + (rest.map itemTotal).sum + diff := by
  simp only [spreadTax, List.map_cons, List.sum_cons]
  rw [sum_map_itemTotal_tax_add]
  simp only [itemTotal]
  ring

theorem total_by_items_set_items (o : MOrder) (L : List MItem) :
    total_by_items { o with items := L }
      = (L.map itemTotal).sum + o.shipping - o.promotion := rfl

theorem misc_charge_fix (o : MOrder) :
    (attribute_subtotal_diff_to_misc_charge o).2.total_charged = o.total_charged ∧
    total_by_subtotals (attribute_subtotal_diff_to_misc_charge o).2 = o.total_charged ∧
    ((attribute_subtotal_diff_to_misc_charge o).2.items = [] → o.items = []) := by
  simp only [attribute_subtotal_diff_to_misc_charge]
  split
  · next h =>
    refine ⟨rfl, ?_, fun h' => h'⟩
    simp only [total_by_subtotals] at h ⊢
    linarith
  · next h =>
    refine ⟨rfl, ?_, ?_⟩
    · simp only [total_by_subtotals]
      linarith
    · intro h'
      simp at h'

theorem per_item_tax_fix (o : MOrder) :
    (attribute_itemized_diff_to_per_item_tax o).2.total_charged = o.total_charged ∧
    total_by_subtotals (attribute_itemized_diff_to_per_item_tax o).2
      = total_by_subtotals o ∧
    ((attribute_itemized_diff_to_per_item_tax o).2.items = [] → o.items = []) ∧
    (o.items ≠ [] →
      total_by_items (attribute_itemized_diff_to_per_item_tax o).2
        = o.total_charged) := by
  simp only [attribute_itemized_diff_to_per_item_tax]
  split
  · next h =>
    refine ⟨rfl, rfl, fun h' => h', fun _ => ?_⟩
    simp only [total_by_items] at h ⊢
    linarith
  · next h =>
    split
    · next heq => exact ⟨rfl, rfl, fun h' => h', fun hne => absurd heq hne⟩
    · next i rest heq =>
      refine ⟨rfl, rfl, ?_, fun _ => ?_⟩
      · intro h'
        simp [spreadTax] at h'
      · have htot : total_by_items o
            = itemTotal i + (rest.map itemTotal).sum + o.shipping - o.promotion := by
          simp only [total_by_items, heq, List.map_cons, List.sum_cons]
        have h2 : total_by_items
            { o with items := spreadTax (o.total_charged - total_by_items o) i rest }
            = o.total_charged := by
          rw [total_by_items_set_items, sum_spreadTax]
          linarith
        exact h2

theorem fixedOrder_totals (o : MOrder) (h2 : o.items ≠ []) :
    (fixedOrder o).1.total_charged = o.total_charged ∧
    total_by_subtotals (fixedOrder o).1 = o.total_charged ∧
    total_by_items (fixedOrder o).1 = o.total_charged ∧
    (fixedOrder o).1.items ≠ [] := by
  obtain ⟨hc1, hs1, hn1⟩ := misc_charge_fix o
  obtain ⟨hc2, hs2, hn2, hi2⟩ :=
    per_item_tax_fix (attribute_subtotal_diff_to_misc_charge o).2
  have hne1 : (attribute_subtotal_diff_to_misc_charge o).2.items ≠ [] :=
    fun h' => h2 (hn1 h')
  have hne2 : (fixedOrder o).1.items ≠ [] := fun h' => hne1 (hn2 h')
  refine ⟨?_, ?_, ?_, hne2⟩
  · exact hc2.trans hc1
  · exact hs2.trans hs1
  · exact (hi2 hne1).trans hc1

/-- Claim C3: for a matched debit transaction whose merged order carries the
matching guarantee (amount equals charged total) and owns items, the three
reconciliation equalities hold within epsilon after the misc-charge and
per-item-tax fix-ups; and whenever any of the three checks fails on a
fixed-up order, the update loop iteration aborts with an assertion failure
instead of emitting an update. -/
theorem reconciliation_exactness (t : PTrans) (o : MOrder)
    (h1 : t.amount = o.total_charged) (h2 : o.items ≠ []) :
    (micro_usd_nearly_equal t.amount (fixedOrder o).1.total_charged = true ∧
     micro_usd_nearly_equal t.amount (total_by_subtotals (fixedOrder o).1) = true ∧
     micro_usd_nearly_equal t.amount (total_by_items (fixedOrder o).1) = true) ∧
    ∀ (num : Int) (args : Args) (renames : List (List Char × List Char))
      (t1 : PTrans) (o1 : MOrder) (st : Stats) (ups : Updates)
      (input : List (Option Char)),
      reconCheck t1 (fixedOrder o1).1 = false →
      processOne num args renames t1 (.debit o1) st ups input
        = .error .assertFail := by
  obtain ⟨hc, hs, hi, _⟩ := fixedOrder_totals o h2
  refine ⟨⟨?_, ?_, ?_⟩, ?_⟩
  · exact nearly_equal_of_eq (h1.trans hc.symm)
  · exact nearly_equal_of_eq (h1.trans hs.symm)
  · exact nearly_equal_of_eq (h1.trans hi.symm)
  · intro num args renames t1 o1 st ups input hfail
    simp only [processOne, hfail]
    rfl

theorem sum_amounts_to_mint (o : MOrder) (h : o.items ≠ []) :
    sum_amounts (to_mint_transactions o) = total_by_items o := by
  simp only [to_mint_transactions]
  split
  · next heq => exact absurd heq h
  · next i rest heq =>
    have hmap : ((rest.map fun j =>
        ({ merchant := j.title, amount := itemTotal j,
           category := j.category } : NewTrans)).map NewTrans.amount)
        = rest.map itemTotal := by
      rw [List.map_map]
      rfl
    simp only [sum_amounts, total_by_items, heq, List.map_cons, List.sum_cons, hmap]
    ring

theorem applyRenames_amounts (renames : List (List Char × List Char)) :
    ∀ l : List NewTrans,
    (applyRenames renames l).1.map NewTrans.amount = l.map NewTrans.amount := by
  intro l
  induction l with
  | nil => rfl
  | cons n rest ih =>
    simp only [applyRenames]
    cases hlk : lookupRename renames (rm_leading_qty (lowerStr n.merchant)) with
    | none => simp [List.map_cons, ih]
    | some c =>
      by_cases hc : c == n.category
      · simp [hc, List.map_cons, ih]
      · simp [hc, List.map_cons, ih]

theorem applyRenames_sum (renames : List (List Char × List Char))
    (l : List NewTrans) :
    sum_amounts (applyRenames renames l).1 = sum_amounts l := by
  unfold sum_amounts
  rw [applyRenames_amounts]

theorem sum_amounts_itemize (news : List NewTrans) (preS : List Char) :
    sum_amounts (itemize_new_trans news preS) = sum_amounts news := by
  simp only [sum_amounts, itemize_new_trans, List.map_map]
  rfl

theorem sum_amounts_summarize (t : PTrans) (news : List NewTrans)
    (preS : List Char) :
    sum_amounts (summarize_new_trans t news preS) = t.amount := by
  simp [sum_amounts, summarize_new_trans]

theorem proposed_sum (args : Args) (renames : List (List Char × List Char))
    (t : PTrans) (p : Payload) (H : PayloadOK t p) :
    sum_amounts (proposedNewTrans args renames t p).1 = t.amount := by
  have hraw : sum_amounts (rawNewTrans p) = t.amount := by
    cases p with
    | debit o =>
      obtain ⟨_, hamt, hitems⟩ := H
      have hfix := fixedOrder_totals o hitems
      calc sum_amounts (to_mint_transactions (fixedOrder o).1)
          = total_by_items (fixedOrder o).1 := sum_amounts_to_mint _ hfix.2.2.2
        _ = o.total_charged := hfix.2.2.1
        _ = t.amount := hamt.symm
    | refund rs =>
      obtain ⟨_, hamt⟩ := H
      have hmap : ((rs.map refund_to_mint_transaction).map NewTrans.amount)
          = rs.map MRefund.amount := by
        rw [List.map_map]
        rfl
      simp only [rawNewTrans, sum_amounts, hmap]
      exact hamt.symm
  simp only [proposedNewTrans]
  split
  · exact sum_amounts_summarize t _ _
  · rw [sum_amounts_itemize, applyRenames_sum]
    exact hraw

theorem policyTail_shape (num : Int) (args : Args)
    (renames : List (List Char × List Char)) (t : PTrans) (p : Payload)
    (st : Stats) (ups : Updates) (input : List (Option Char)) (r : StepOut)
    (h : policyTail num args renames t p st ups input = .ok r) :
    ∃ st' ups' in', (r = .cont st' ups' in' ∨ r = .brk st' ups' in') ∧
      (ups' = ups ∨ ups' = ups ++ [(t, (proposedNewTrans args renames t p).1)]) := by
  simp only [policyTail] at h
  split at h
  · exact ⟨_, ups, input, Or.inl (Except.ok.inj h).symm, Or.inl rfl⟩
  · split at h
    · split at h
      · split at h
        · exact ⟨_, ups, input, Or.inr (Except.ok.inj h).symm, Or.inl rfl⟩
        · split at h
          · exact absurd h (by simp)
          · exact absurd h (by simp)
          · split at h
            · exact ⟨_, _, _, Or.inl (Except.ok.inj h).symm, Or.inr rfl⟩
            · exact ⟨_, ups, _, Or.inl (Except.ok.inj h).symm, Or.inl rfl⟩
      · split at h
        · exact ⟨_, _, input, Or.inl (Except.ok.inj h).symm, Or.inr rfl⟩
        · exact ⟨_, ups, input, Or.inl (Except.ok.inj h).symm, Or.inl rfl⟩
    · exact ⟨_, _, input, Or.inl (Except.ok.inj h).symm, Or.inr rfl⟩

theorem processOne_ok_policy (num : Int) (args : Args)
    (renames : List (List Char × List Char)) (t : PTrans) (p : Payload)
    (st : Stats) (ups : Updates) (input : List (Option Char)) (r : StepOut)
    (h : processOne num args renames t p st ups input = .ok r) :
    ∃ st1, policyTail num args renames t p st1 ups input = .ok r ∧
      st1.already_up_to_date = st.already_up_to_date ∧
      st1.user_skipped_retag = st.user_skipped_retag ∧
      st1.retag = st.retag := by
  cases p with
  | debit o =>
    simp only [processOne] at h
    split at h
    · split at h
      · exact ⟨_, h, rfl, rfl, rfl⟩
      · exact absurd h (by simp)
    · exact absurd h (by simp)
  | refund rs =>
    simp only [processOne] at h
    split at h
    · exact ⟨st, h, rfl, rfl, rfl⟩
    · exact absurd h (by simp)

theorem processOne_shape (num : Int) (args : Args)
    (renames : List (List Char × List Char)) (t : PTrans) (p : Payload)
    (st : Stats) (ups : Updates) (input : List (Option Char)) (r : StepOut)
    (h : processOne num args renames t p st ups input = .ok r) :
    ∃ st' ups' in', (r = .cont st' ups' in' ∨ r = .brk st' ups' in') ∧
      (ups' = ups ∨ ups' = ups ++ [(t, (proposedNewTrans args renames t p).1)]) := by
  obtain ⟨st1, h1, _⟩ := processOne_ok_policy num args renames t p st ups input r h
  exact policyTail_shape num args renames t p st1 ups input r h1

theorem processLoop_conserve (num : Int) (args : Args)
    (renames : List (List Char × List Char)) :
    ∀ (ps : List (PTrans × Payload)) (st : Stats) (acc : Updates)
      (input : List (Option Char)) (st' : Stats) (ups' : Updates)
      (in' : List (Option Char)),
    processLoop num args renames ps st acc input = .ok (st', ups', in') →
    (∀ q ∈ ps, PayloadOK q.1 q.2) →
    (∀ u ∈ acc, sum_amounts u.2 = u.1.amount) →
    ∀ u ∈ ups', sum_amounts u.2 = u.1.amount := by
  intro ps
  induction ps with
  | nil =>
    intro st acc input st' ups' in' h _ hacc
    have hp : (st, acc, input) = (st', ups', in') := Except.ok.inj h
    have : acc = ups' := congrArg (fun x => x.2.1) hp
    rw [← this]
    exact hacc
  | cons q rest ih =>
    intro st acc input st' ups' in' h hps hacc
    cases hpo : processOne num args renames q.1 q.2 st acc input with
    | error e =>
      rw [show processLoop num args renames (q :: rest) st acc input = .error e
        from by simp only [processLoop, hpo]] at h
      exact absurd h (by simp)
    | ok so =>
      have hq : PayloadOK q.1 q.2 := hps q (List.mem_cons_self _ _)
      have hnext : ∀ u ∈ (match so with
          | .cont _ u _ => u
          | .brk _ u _ => u), sum_amounts u.2 = u.1.amount := by
        obtain ⟨st2, ups2, in2, hor, hups⟩ :=
          processOne_shape num args renames q.1 q.2 st acc input so hpo
        rcases hor with hrf | hrf <;> rw [hrf] <;>
          · rcases hups with hrf2 | hrf2 <;> rw [hrf2]
            · exact hacc
            · intro u hu
              rcases List.mem_append.mp hu with hm | hm
              · exact hacc u hm
              · rw [List.mem_singleton.mp hm]
                exact proposed_sum args renames q.1 q.2 hq
      cases so with
      | brk st1 ups1 in1 =>
        rw [show processLoop num args renames (q :: rest) st acc input
            = .ok (st1, ups1, in1) from by simp only [processLoop, hpo]] at h
        have hp : (st1, ups1, in1) = (st', ups', in') := Except.ok.inj h
        have he : ups1 = ups' := congrArg (fun x => x.2.1) hp
        rw [← he]
        exact hnext
      | cont st1 ups1 in1 =>
        rw [show processLoop num args renames (q :: rest) st acc input
            = processLoop num args renames rest st1 ups1 in1
          from by simp only [processLoop, hpo]] at h
        exact ih st1 ups1 in1 st' ups' in' h
          (fun q' hq' => hps q' (List.mem_cons_of_mem _ hq')) hnext

/-- Claim C2: every update emitted by the update loop carries replacement
entries whose amounts sum exactly to the original transaction amount
(hence the epsilon check they must pass), the conservation check is
enforced before emission — a transaction whose synthesized entries fail it
aborts the run — and in a split request the sign of every child entry
amount is flipped when the original transaction is a credit. -/
theorem synthesis_conservation (num : Int) (args : Args)
    (renames : List (List Char × List Char)) (ps : List (PTrans × Payload))
    (st0 : Stats) (input : List (Option Char)) (st : Stats) (ups : Updates)
    (inrest : List (Option Char))
    (H : ∀ q ∈ ps, PayloadOK q.1 q.2)
    (h : processLoop num args renames ps st0 [] input = .ok (st, ups, inrest)) :
    (∀ u ∈ ups, sum_amounts u.2 = u.1.amount) ∧
    (∀ u ∈ ups, micro_usd_nearly_equal u.1.amount (sum_amounts u.2) = true) ∧
    (∀ u ∈ ups, u.1.isDebit = false →
      split_amounts u.1 u.2 = u.2.map fun n => -n.amount) ∧
    ∀ (t : PTrans) (o : MOrder) (st1 : Stats) (ups1 : Updates)
      (in1 : List (Option Char)),
      micro_usd_nearly_equal t.amount
        (sum_amounts (to_mint_transactions (fixedOrder o).1)) = false →
      processOne num args renames t (.debit o) st1 ups1 in1
        = .error .assertFail := by
  have hcons := processLoop_conserve num args renames ps st0 [] input st ups
    inrest h H (by intro u hu; cases hu)
  refine ⟨hcons, ?_, ?_, ?_⟩
  · intro u hu
    exact nearly_equal_of_eq (hcons u hu).symm
  · intro u hu hdeb
    simp [split_amounts, hdeb]
  · intro t o st1 ups1 in1 hfail
    simp only [processOne, hfail]
    split
    · rfl
    · rfl

theorem policyTail_identical (num : Int) (args : Args)
    (renames : List (List Char × List Char)) (t : PTrans) (p : Payload)
    (st : Stats) (ups : Updates) (input : List (Option Char))
    (hid : old_and_new_are_identical t (proposedNewTrans args renames t p).1
      args.no_tag_categories = true) :
    policyTail num args renames t p st ups input
      = .ok (.cont { st with
          personal_cat := st.personal_cat + (proposedNewTrans args renames t p).2,
          already_up_to_date := st.already_up_to_date + 1 } ups input) := by
  simp only [policyTail, hid]
  rfl

theorem processOne_identical (num : Int) (args : Args)
    (renames : List (List Char × List Char)) (t : PTrans) (p : Payload)
    (st : Stats) (ups : Updates) (input : List (Option Char)) (so : StepOut)
    (hid : old_and_new_are_identical t (proposedNewTrans args renames t p).1
      args.no_tag_categories = true)
    (h : processOne num args renames t p st ups input = .ok so) :
    ∃ st', so = .cont st' ups input ∧
      st'.already_up_to_date = st.already_up_to_date + 1 := by
  obtain ⟨st1, h1, halr, _, _⟩ :=
    processOne_ok_policy num args renames t p st ups input so h
  rw [policyTail_identical num args renames t p st1 ups input hid] at h1
  refine ⟨_, (Except.ok.inj h1).symm, ?_⟩
  simp [halr]

theorem processLoop_all_identical (num : Int) (args : Args)
    (renames : List (List Char × List Char)) :
    ∀ (ps : List (PTrans × Payload)) (st : Stats) (acc : Updates)
      (input : List (Option Char)) (st' : Stats) (ups' : Updates)
      (in' : List (Option Char)),
    processLoop num args renames ps st acc input = .ok (st', ups', in') →
    (∀ q ∈ ps, old_and_new_are_identical q.1
      (proposedNewTrans args renames q.1 q.2).1 args.no_tag_categories = true) →
    ups' = acc := by
  intro ps
  induction ps with
  | nil =>
    intro st acc input st' ups' in' h _
    have hp : (st, acc, input) = (st', ups', in') := Except.ok.inj h
    exact (congrArg (fun x => x.2.1) hp).symm
  | cons q rest ih =>
    intro st acc input st' ups' in' h hall
    cases hpo : processOne num args renames q.1 q.2 st acc input with
    | error e =>
      rw [show processLoop num args renames (q :: rest) st acc input = .error e
        from by simp only [processLoop, hpo]] at h
      exact absurd h (by simp)
    | ok so =>
      obtain ⟨st1, hso, _⟩ := processOne_identical num args renames q.1 q.2
        st acc input so (hall q (List.mem_cons_self _ _)) hpo
      rw [hso] at hpo
      rw [show processLoop num args renames (q :: rest) st acc input
          = processLoop num args renames rest st1 acc input
        from by simp only [processLoop, hpo]] at h
      exact ih st1 acc input st' ups' in' h
        (fun q' hq' => hall q' (List.mem_cons_of_mem _ hq'))

/-- Claim C4: a matched transaction whose current state already equals the
proposed replacement set is counted `already_up_to_date` and excluded from
the update list (the loop iteration leaves the list untouched); hence a
run over transactions that all carry the previous run's output emits zero
updates. -/
theorem idempotence_up_to_date (num : Int) (args : Args)
    (renames : List (List Char × List Char)) (t : PTrans) (p : Payload)
    (st : Stats) (ups : Updates) (input : List (Option Char)) (so : StepOut)
    (hid : old_and_new_are_identical t (proposedNewTrans args renames t p).1
      args.no_tag_categories = true)
    (h : processOne num args renames t p st ups input = .ok so) :
    (∃ st', so = .cont st' ups input ∧
      st'.already_up_to_date = st.already_up_to_date + 1) ∧
    ∀ (ps : List (PTrans × Payload)) (st0 : Stats)
      (input0 : List (Option Char)) (stF : Stats) (upsF : Updates)
      (inF : List (Option Char)),
      (∀ q ∈ ps, old_and_new_are_identical q.1
        (proposedNewTrans args renames q.1 q.2).1 args.no_tag_categories = true) →
      processLoop num args renames ps st0 [] input0 = .ok (stF, upsF, inF) →
      upsF = [] := by
  refine ⟨processOne_identical num args renames t p st ups input so hid h, ?_⟩
  intro ps st0 input0 stF upsF inF hall hloop
  exact processLoop_all_identical num args renames ps st0 [] input0 stF upsF
    inF hloop hall

theorem policyTail_cap (num : Int) (args : Args)
    (renames : List (List Char × List Char)) (t : PTrans) (p : Payload)
    (st : Stats) (ups : Updates) (input : List (Option Char)) :
    policyTail num args renames t p st ups input
      = policyTail 0 args renames t p st ups input
    ∨ ∃ st', policyTail num args renames t p st ups input
        = .ok (.brk st' ups input) ∧ 0 < num ∧ num ≤ (ups.length : Int) := by
  by_cases hcap : (0 < num ∧ num ≤ (ups.length : Int))
  · by_cases h1 : old_and_new_are_identical t (proposedNewTrans args renames t p).1
        args.no_tag_categories = true
    · left
      simp [policyTail, h1]
    · by_cases h2 : ((args.amazon_domains.map lowerStr)
          ++ [lowerStr (payloadPre args p)]).any
            (fun q => isPre q (lowerStr t.merchant)) = true
      · by_cases h3 : args.prompt_retag = true
        · right
          exact ⟨{ st with personal_cat :=
              st.personal_cat + (proposedNewTrans args renames t p).2 },
            by simp [policyTail, h1, h2, h3, if_pos hcap], hcap⟩
        · left
          simp [policyTail, h1, h2, h3]
      · left
        simp [policyTail, h1, h2]
  · left
    have h0 : ¬ ((0:Int) < 0 ∧ (0:Int) ≤ (ups.length : Int)) := by
      rintro ⟨hlt, _⟩
      exact absurd hlt (by norm_num)
    simp only [policyTail]
    rw [if_neg hcap, if_neg h0]

theorem processOne_cap (num : Int) (args : Args)
    (renames : List (List Char × List Char)) (t : PTrans) (p : Payload)
    (st : Stats) (ups : Updates) (input : List (Option Char)) :
    processOne num args renames t p st ups input
      = processOne 0 args renames t p st ups input
    ∨ ∃ st', processOne num args renames t p st ups input
        = .ok (.brk st' ups input) ∧ 0 < num ∧ num ≤ (ups.length : Int) := by
  cases p with
  | debit o =>
    by_cases hrc : reconCheck t (fixedOrder o).1 = true
    · by_cases hne : micro_usd_nearly_equal t.amount
          (sum_amounts (to_mint_transactions (fixedOrder o).1)) = true
      · have hred : ∀ n : Int, processOne n args renames t (.debit o) st ups input
            = policyTail n args renames t (.debit o)
              { st with
                misc_charge := st.misc_charge + (if (fixedOrder o).2.1 then 1 else 0),
                adjust_itemized_tax :=
                  st.adjust_itemized_tax + (if (fixedOrder o).2.2 then 1 else 0) }
              ups input := by
          intro n
          simp only [processOne, hrc, hne]
          rfl
        rw [hred num, hred 0]
        exact policyTail_cap num args renames t (.debit o) _ ups input
      · left
        simp only [processOne, hrc, hne]
        rfl
    · left
      simp only [processOne, hrc]
      rfl
  | refund rs =>
    by_cases hne : micro_usd_nearly_equal t.amount
        (sum_amounts (rs.map refund_to_mint_transaction)) = true
    · have hred : ∀ n : Int, processOne n args renames t (.refund rs) st ups input
          = policyTail n args renames t (.refund rs) st ups input := by
        intro n
        simp only [processOne, hne]
        rfl
      rw [hred num, hred 0]
      exact policyTail_cap num args renames t (.refund rs) st ups input
    · left
      simp only [processOne, hne]
      rfl

theorem processLoop_mono (num : Int) (args : Args)
    (renames : List (List Char × List Char)) :
    ∀ (ps : List (PTrans × Payload)) (st : Stats) (acc : Updates)
      (input : List (Option Char)) (st' : Stats) (ups' : Updates)
      (in' : List (Option Char)),
    processLoop num args renames ps st acc input = .ok (st', ups', in') →
    ∃ d, ups' = acc ++ d := by
  intro ps
  induction ps with
  | nil =>
    intro st acc input st' ups' in' h
    have hp : (st, acc, input) = (st', ups', in') := Except.ok.inj h
    have he : acc = ups' := congrArg (fun x => x.2.1) hp
    exact ⟨[], by rw [← he]; simp⟩
  | cons q rest ih =>
    intro st acc input st' ups' in' h
    cases hpo : processOne num args renames q.1 q.2 st acc input with
    | error e =>
      rw [show processLoop num args renames (q :: rest) st acc input = .error e
        from by simp only [processLoop, hpo]] at h
      exact absurd h (by simp)
    | ok so =>
      have hsh := processOne_shape num args renames q.1 q.2 st acc input so hpo
      cases so with
      | brk st1 ups1 in1 =>
        rw [show processLoop num args renames (q :: rest) st acc input
            = .ok (st1, ups1, in1) from by simp only [processLoop, hpo]] at h
        have hp : (st1, ups1, in1) = (st', ups', in') := Except.ok.inj h
        have he : ups1 = ups' := congrArg (fun x => x.2.1) hp
        obtain ⟨st2, ups2, in2, hor, hups⟩ := hsh
        rcases hor with hc | hb
        · exact absurd hc (by simp)
        · have : ups1 = ups2 := (StepOut.brk.inj hb).2.1
          rcases hups with h' | h'
          · exact ⟨[], by rw [← he, this, h']; simp⟩
          · exact ⟨_, by rw [← he, this, h']⟩
      | cont st1 ups1 in1 =>
        rw [show processLoop num args renames (q :: rest) st acc input
            = processLoop num args renames rest st1 ups1 in1
          from by simp only [processLoop, hpo]] at h
        obtain ⟨d, hd⟩ := ih st1 ups1 in1 st' ups' in' h
        obtain ⟨st2, ups2, in2, hor, hups⟩ := hsh
        rcases hor with hc | hb
        · have : ups1 = ups2 := (StepOut.cont.inj hc).2.1
          rcases hups with h' | h'
          · exact ⟨d, by rw [hd, this, h']⟩
          · exact ⟨[(q.1, (proposedNewTrans args renames q.1 q.2).1)] ++ d,
              by rw [hd, this, h', List.append_assoc]⟩
        · exact absurd hb (by simp)

theorem processLoop_cap (args : Args)
    (renames : List (List Char × List Char)) (num : Int) :
    ∀ (ps : List (PTrans × Payload)) (st : Stats) (acc : Updates)
      (input : List (Option Char)) (st0 : Stats) (ups0 : Updates)
      (in0 : List (Option Char)),
    processLoop 0 args renames ps st acc input = .ok (st0, ups0, in0) →
    ∃ stC upsC inC,
      processLoop num args renames ps st acc input = .ok (stC, upsC, inC) ∧
      upsC.take num.toNat = ups0.take num.toNat := by
  intro ps
  induction ps with
  | nil =>
    intro st acc input st0 ups0 in0 h
    have hp : (st, acc, input) = (st0, ups0, in0) := Except.ok.inj h
    have he : acc = ups0 := congrArg (fun x => x.2.1) hp
    exact ⟨st, acc, input, rfl, by rw [he]⟩
  | cons q rest ih =>
    intro st acc input st0 ups0 in0 h
    cases hp0 : processOne 0 args renames q.1 q.2 st acc input with
    | error e =>
      rw [show processLoop 0 args renames (q :: rest) st acc input = .error e
        from by simp only [processLoop, hp0]] at h
      exact absurd h (by simp)
    | ok so =>
      rcases processOne_cap num args renames q.1 q.2 st acc input with
        heq | ⟨st', hbrk, hcap⟩
      · cases so with
        | brk st1 ups1 in1 =>
          rw [show processLoop 0 args renames (q :: rest) st acc input
              = .ok (st1, ups1, in1) from by simp only [processLoop, hp0]] at h
          have hp : (st1, ups1, in1) = (st0, ups0, in0) := Except.ok.inj h
          have he : ups1 = ups0 := congrArg (fun x => x.2.1) hp
          refine ⟨st1, ups1, in1, ?_, by rw [he]⟩
          rw [show processLoop num args renames (q :: rest) st acc input
              = .ok (st1, ups1, in1)
            from by simp only [processLoop, heq, hp0]]
        | cont st1 ups1 in1 =>
          rw [show processLoop 0 args renames (q :: rest) st acc input
              = processLoop 0 args renames rest st1 ups1 in1
            from by simp only [processLoop, hp0]] at h
          obtain ⟨stC, upsC, inC, hC, htake⟩ := ih st1 ups1 in1 st0 ups0 in0 h
          refine ⟨stC, upsC, inC, ?_, htake⟩
          rw [show processLoop num args renames (q :: rest) st acc input
              = processLoop num args renames rest st1 ups1 in1
            from by simp only [processLoop, heq, hp0]]
          exact hC
      · refine ⟨st', acc, input, ?_, ?_⟩
        · rw [show processLoop num args renames (q :: rest) st acc input
              = .ok (st', acc, input) from by simp only [processLoop, hbrk]]
        · obtain ⟨d, hd⟩ := processLoop_mono 0 args renames (q :: rest) st acc
            input st0 ups0 in0 h
          rw [hd, List.take_append_of_le_length (by omega)]

/-- Claim C7: with a positive update cap N, the update list returned by
get_mint_updates equals the first N entries of the list obtained by
resolving the policy for all matched transactions without a cap — the loop
break under the cap and the final truncation never change the first N
policy-approved updates in encounter order. -/
theorem update_cap (num : Int) (args : Args)
    (renames : List (List Char × List Char)) (ps : List (PTrans × Payload))
    (stInit : Stats) (input : List (Option Char)) (st0 : Stats)
    (ups0 : Updates) (in0 : List (Option Char))
    (hnum : 0 < num)
    (h0 : processLoop 0 args renames ps stInit [] input = .ok (st0, ups0, in0)) :
    ∃ stC, get_mint_updates num args renames ps stInit input
      = .ok (ups0.take num.toNat, stC) := by
  obtain ⟨stC, upsC, inC, hC, htake⟩ :=
    processLoop_cap args renames num ps stInit [] input st0 ups0 in0 h0
  refine ⟨stC, ?_⟩
  rw [show get_mint_updates num args renames ps stInit input
      = .ok ((if 0 < num then upsC.take num.toNat else upsC), stC)
    from by simp only [get_mint_updates, hC]]
  rw [if_pos hnum, htake]

/-- Counterexample to claim C8 as stated: at the interactive retag prompt,
the malformed (non yes/no) input character `x` does not abort the run — the
iteration returns normally with the `user_skipped_retag` counter bumped and
no update emitted. -/
theorem interactive_malformed_counterexample :
    processOne 0 cArgsX [] cTransX (.refund [cRefundX]) {} [] [some 'x']
      = .ok (.cont { user_skipped_retag := 1 } [] []) ∧
    ∀ e, processOne 0 cArgsX [] cTransX (.refund [cRefundX]) {} [] [some 'x']
      ≠ .error e := by
  have hres : processOne 0 cArgsX [] cTransX (.refund [cRefundX]) {} [] [some 'x']
      = .ok (.cont { user_skipped_retag := 1 } [] []) := by rfl
  exact ⟨hres, fun e h => by rw [hres] at h; cases h⟩

/-- Claim C8 (amended): at the interactive retag confirmation prompt, an
empty read (abort signal, also an exhausted input stream) terminates the
whole run; any read character other than an explicit yes (`Y`, `y`,
carriage return or newline) — malformed input included — produces the
non-fatal `user_skipped_retag` outcome with no update emitted; a yes answer
produces the `retag` outcome with the update emitted. -/
theorem interactive_confirmation (num : Int) (args : Args)
    (renames : List (List Char × List Char)) (t : PTrans) (p : Payload)
    (st : Stats) (ups : Updates) (input : List (Option Char))
    (hp : args.prompt_retag = true)
    (hid : old_and_new_are_identical t (proposedNewTrans args renames t p).1
      args.no_tag_categories = false)
    (hpre : ((args.amazon_domains.map lowerStr)
      ++ [lowerStr (payloadPre args p)]).any
        (fun q => isPre q (lowerStr t.merchant)) = true)
    (hcap : ¬ (0 < num ∧ num ≤ (ups.length : Int))) :
    (∀ rest, input = none :: rest →
      policyTail num args renames t p st ups input = .error .userExit) ∧
    (input = [] →
      policyTail num args renames t p st ups input = .error .userExit) ∧
    (∀ c rest, input = some c :: rest →
      c ≠ 'Y' → c ≠ 'y' → c ≠ '\r' → c ≠ '\n' →
      ∃ st', policyTail num args renames t p st ups input
          = .ok (.cont st' ups rest) ∧
        st'.user_skipped_retag = st.user_skipped_retag + 1) ∧
    ∀ c rest, input = some c :: rest →
      (c = 'Y' ∨ c = 'y' ∨ c = '\r' ∨ c = '\n') →
      ∃ st', policyTail num args renames t p st ups input
          = .ok (.cont st'
            (ups ++ [(t, (proposedNewTrans args renames t p).1)]) rest) ∧
        st'.retag = st.retag + 1 := by
  have h1 : ¬ (old_and_new_are_identical t (proposedNewTrans args renames t p).1
      args.no_tag_categories = true) := by simp [hid]
  have hred : policyTail num args renames t p st ups input
      = (match input with
        | [] => .error .userExit
        | none :: _ => .error .userExit
        | some c :: rest =>
          if c = 'Y' ∨ c = 'y' ∨ c = '\r' ∨ c = '\n' then
            .ok (.cont { st with
                personal_cat :=
                  st.personal_cat + (proposedNewTrans args renames t p).2,
                retag := st.retag + 1 }
              (ups ++ [(t, (proposedNewTrans args renames t p).1)]) rest)
          else
            .ok (.cont { st with
                personal_cat :=
                  st.personal_cat + (proposedNewTrans args renames t p).2,
                user_skipped_retag := st.user_skipped_retag + 1 }
              ups rest)) := by
    simp only [policyTail]
    rw [if_neg h1, if_pos hpre, if_pos hp, if_neg hcap]
  refine ⟨?_, ?_, ?_, ?_⟩
  · intro rest hin
    rw [hred, hin]
  · intro hin
    rw [hred, hin]
  · intro c rest hin hY hy hr hn
    rw [hred, hin]
    have hcond : ¬ (c = 'Y' ∨ c = 'y' ∨ c = '\r' ∨ c = '\n') := by
      rintro (h' | h' | h' | h') <;> [exact hY h'; exact hy h'; exact hr h'; exact hn h']
    simp only [if_neg hcond]
    exact ⟨_, rfl, by simp⟩
  · intro c rest hin hyes
    rw [hred, hin]
    simp only [if_pos hyes]
    exact ⟨_, rfl, by simp⟩

/-- Claim C10: the merchant-substring input filter reads the transaction's
original description, never its current one — two transactions with the
same original description filter identically whatever their current
descriptions — so a transaction whose original description contains a
whitelist substring stays eligible for matching after its current
description was rewritten. -/
theorem merchant_filter_original_desc (wl : List (List Char))
    (ts : List PTrans) (t : PTrans)
    (hmem : t ∈ ts)
    (hw : ∃ w ∈ wl, subStr w (lowerStr t.omerchant) = true) :
    t ∈ filterByMerchant wl ts ∧
    ∀ t2 : PTrans, t2.omerchant = t.omerchant →
      merchantFilterKeep wl t2 = merchantFilterKeep wl t := by
  constructor
  · refine List.mem_filter.mpr ⟨hmem, ?_⟩
    obtain ⟨w, hwmem, hsub⟩ := hw
    exact List.any_eq_true.mpr ⟨w, hwmem, hsub⟩
  · intro t2 he
    simp [merchantFilterKeep, he]

/-- Witness for matching_soundness on a one-order, one-transaction run. -/
theorem matching_soundness_witness :
    (∀ t' ∈ wTs1', ∀ g, t'.orders = some g →
      sumAmounts g = t'.amount ∧
      (∃ o, transactDateRep g = some o ∧ ∃ d, o.tdate = some d ∧
        |t'.odate - d| ≤ 3) ∧
      ∀ o ∈ g, o.uid ∈ ([0] : List Nat)) ∧
    List.Pairwise GroupsDisjoint wTs1' :=
  matching_soundness [] wOs1 wTs1 [0] wTs1' (by decide) (by rfl)

/-- Witness for nearest_date_selection: two candidates at equal day gaps,
the first in bucket order is chosen. -/
theorem nearest_date_selection_witness :
    Elig [] wT5 wG5a ∧
    (∀ g' ∈ [wG5a, wG5b], Elig [] wT5 g' → gapDays wT5 wG5a ≤ gapDays wT5 g') ∧
    ∃ pre post, [wG5a, wG5b] = pre ++ wG5a :: post ∧
      ∀ g' ∈ pre, Elig [] wT5 g' → gapDays wT5 wG5a < gapDays wT5 g' :=
  nearest_date_selection [] wT5 [wG5a, wG5b] ([] ++ wG5a.map AOrder.uid)
    { wT5 with orders := some wG5a } wG5a rfl (by rfl) rfl

/-- Witness for passB_enumeration on two unmatched orders sharing an id. -/
theorem passB_enumeration_witness :
    (∀ c ∈ passBCombos (unmatchedAfter wOs6 []), 2 ≤ c.length ∧
      (∀ o ∈ c, o ∈ wOs6 ∧ o.uid ∉ ([] : List Nat)) ∧
      ∀ o1 ∈ c, ∀ o2 ∈ c, o1.oid = o2.oid) ∧
    (∀ (k : Nat) (s : List AOrder), 2 ≤ s.length →
      s.Sublist ((unmatchedAfter wOs6 []).filter fun o => decide (o.oid = k)) →
      s ∈ passBCombos (unmatchedAfter wOs6 [])) ∧
    (∀ (a : Money) (c : List AOrder),
      c ∈ passBBuckets (unmatchedAfter wOs6 []) a ↔
        (c ∈ passBCombos (unmatchedAfter wOs6 []) ∧ sumAmounts c = a)) :=
  passB_enumeration wOs6 []

/-- Witness for reconciliation_exactness on a concrete matched order. -/
theorem reconciliation_exactness_witness :
    micro_usd_nearly_equal wTrans.amount (fixedOrder wOrder).1.total_charged = true ∧
    micro_usd_nearly_equal wTrans.amount
      (total_by_subtotals (fixedOrder wOrder).1) = true ∧
    micro_usd_nearly_equal wTrans.amount
      (total_by_items (fixedOrder wOrder).1) = true :=
  (reconciliation_exactness wTrans wOrder rfl (by decide)).1

/-- Witness for synthesis_conservation on a one-transaction run. -/
theorem synthesis_conservation_witness :
    sum_amounts [wEntry] = wTrans.amount :=
  (synthesis_conservation 0 wArgs [] [(wTrans, .debit wOrder)] {} []
    { new_tag := 1 } [(wTrans, [wEntry])] []
    (by
      intro q hq
      rw [List.mem_singleton] at hq
      subst hq
      exact ⟨rfl, rfl, by decide⟩)
    (by rfl)).1 (wTrans, [wEntry]) (List.mem_singleton.mpr rfl)

/-- Witness for idempotence_up_to_date on a transaction already carrying
its proposed output. -/
theorem idempotence_up_to_date_witness :
    ∃ st', (.cont { already_up_to_date := 1 } [] [] : StepOut)
        = .cont st' [] [] ∧
      st'.already_up_to_date = ({} : Stats).already_up_to_date + 1 :=
  (idempotence_up_to_date 0 wArgs [] wTrans4 (.debit wOrder) {} [] []
    (.cont { already_up_to_date := 1 } [] []) (by rfl) (by rfl)).1

/-- Witness for update_cap: a cap of 1 over a two-update run keeps the
first update only. -/
theorem update_cap_witness :
    ∃ stC, get_mint_updates 1 wArgs []
        [(wTrans, .debit wOrder), (wTrans, .debit wOrder)] {} []
      = .ok (([(wTrans, [wEntry]), (wTrans, [wEntry])] : Updates).take
          (Int.toNat 1), stC) :=
  update_cap 1 wArgs [] [(wTrans, .debit wOrder), (wTrans, .debit wOrder)]
    {} [] { new_tag := 2 } [(wTrans, [wEntry]), (wTrans, [wEntry])] []
    (by norm_num) (by rfl)

/-- Witness for interactive_confirmation at the malformed input `x`. -/
theorem interactive_confirmation_witness :
    ∃ st', policyTail 0 cArgsX [] cTransX (.refund [cRefundX]) {} [] [some 'x']
        = .ok (.cont st' [] []) ∧
      st'.user_skipped_retag = ({} : Stats).user_skipped_retag + 1 :=
  (interactive_confirmation 0 cArgsX [] cTransX (.refund [cRefundX]) {} []
    [some 'x'] rfl (by rfl) (by rfl) (by decide)).2.2.1 'x' [] rfl
    (by decide) (by decide) (by decide) (by decide)

/-- Witness for merchant_filter_original_desc: the original description
contains the whitelist string, the current one does not. -/
theorem merchant_filter_original_desc_witness :
    wT10 ∈ filterByMerchant wWl [wT10] ∧
    ∀ t2 : PTrans, t2.omerchant = wT10.omerchant →
      merchantFilterKeep wWl t2 = merchantFilterKeep wWl wT10 :=
  merchant_filter_original_desc wWl [wT10] wT10 (by decide)
    ⟨"amzn".toList, by decide, by rfl⟩

end Tagger

